import Mathlib

/-!
# Verification of `aiger/common.py`

A shallow embedding of the gate-construction combinators and the
dependency-graph / evaluation-order algorithms of `aiger/common.py`,
together with proofs of the specified properties.

The circuit container and node model live in the external `aiger.aig`
module (spec §3/§6); they are modelled here from the specification.
Python `assert` failures and indexing errors are modelled by `Option`
results (`none` means the call raises before returning a circuit).
-/

set_option maxHeartbeats 1000000

/-- Modelled from the spec: the immutable circuit node of the external
`aiger.aig` module (§3): constants, inputs, register current values,
inverters and binary AND gates.  The content-derived identity `id` of a
node is structural equality of the term itself, so nodes are compared
and stored directly. -/
inductive Node : Type
  | ConstFalse : Node
  | Input : String → Node
  | LatchIn : String → Node
  | Inverter : Node → Node
  | AndGate : Node → Node → Node
deriving DecidableEq

/-- Modelled from the spec: `children()` returns the immediate operand
nodes -- empty for the three leaf variants, one for `Inverter`, two for
`AndGate` (§3). -/
def Node.children : Node → List Node
  | .Inverter a => [a]
  | .AndGate a b => [a, b]
  | _ => []

/-- Modelled from the spec: the Boolean value of a node under an
assignment `env` to input names and `lat` to latch current values
(§3: `AndGate` is logical AND, `Inverter` logical NOT, `ConstFalse`
the constant 0). -/
def evalNode (env lat : String → Bool) : Node → Bool
  | .ConstFalse => false
  | .Input n => env n
  | .LatchIn n => lat n
  | .Inverter a => ! evalNode env lat a
  | .AndGate a b => evalNode env lat a && evalNode env lat b

/-- The list of nodes reachable from a node (itself and, transitively,
its children). -/
def reachL : Node → List Node
  | .ConstFalse => [.ConstFalse]
  | .Input n => [.Input n]
  | .LatchIn n => [.LatchIn n]
  | .Inverter a => .Inverter a :: reachL a
  | .AndGate a b => .AndGate a b :: (reachL a ++ reachL b)

/-- Association-list lookup (first entry with the given key), used to
model Python dict / frozenset-of-pairs lookups. -/
def alookup {α β : Type} [DecidableEq α] : List (α × β) → α → Option β
  | [], _ => none
  | p :: rest, k => if p.1 = k then some p.2 else alookup rest k

/-- Modelled from the spec: the external circuit container (§3/§6).
The `frozenset`s of the source are represented by lists, used only for
membership and association lookups. -/
structure AIG where
  inputs : List String
  node_map : List (String × Node)
  latch_map : List (String × Node)
  latch2init : List (String × Bool)
deriving DecidableEq

/-- Substitute nodes for the `Input` leaves named in `σ`; used to model
sequential composition (outputs of the first circuit feeding
identically-named inputs of the second). -/
def substInputs (σ : String → Option Node) : Node → Node
  | .ConstFalse => .ConstFalse
  | .Input n => (σ n).getD (.Input n)
  | .LatchIn n => .LatchIn n
  | .Inverter a => .Inverter (substInputs σ a)
  | .AndGate a b => .AndGate (substInputs σ a) (substInputs σ b)

/-- Modelled from the spec: sequential composition `A >> B` (§6):
outputs of `A` feed identically-named inputs of `B`; non-matching
inputs and outputs pass through.  The collision error for non-matched
output names is not modelled; no claim exercises it. -/
def seq (A B : AIG) : AIG :=
  let σ := alookup A.node_map
  ⟨A.inputs ++ B.inputs.filter (fun n => (alookup A.node_map n).isNone),
   B.node_map.map (fun p => (p.1, substInputs σ p.2))
     ++ A.node_map.filter (fun p => decide (p.1 ∉ B.inputs)),
   A.latch_map ++ B.latch_map.map (fun p => (p.1, substInputs σ p.2)),
   A.latch2init ++ B.latch2init⟩

/-- Modelled from the spec: parallel composition `A | B` (§6): disjoint
union of namespaces; colliding output names between `A` and `B` are a
composition error (`none`). -/
def par (A B : AIG) : Option AIG :=
  if (A.node_map.map Prod.fst).any (fun o => decide (o ∈ B.node_map.map Prod.fst)) then
    none
  else
    some ⟨A.inputs ++ B.inputs, A.node_map ++ B.node_map,
          A.latch_map ++ B.latch_map, A.latch2init ++ B.latch2init⟩

/-- The Boolean value of the named output of a circuit (the value of the
root node stored for it in `node_map`). -/
def AIG.evalOutput (A : AIG) (env lat : String → Bool) (o : String) : Option Bool :=
  (alookup A.node_map o).map (evalNode env lat)

/-- `fn.chunks(2, l)`: split a list into chunks of two (a final odd
element forms a singleton chunk). -/
def chunks2 {α : Type} : List α → List (List α)
  | [] => []
  | [a] => [[a]]
  | a :: b :: rest => [a, b] :: chunks2 rest

theorem chunks2_length {α : Type} : ∀ l : List α, (chunks2 l).length = (l.length + 1) / 2
  | [] => by simp [chunks2]
  | [_] => by simp [chunks2]
  | _ :: _ :: rest => by
      simp only [chunks2, List.length_cons, chunks2_length rest]
      omega

/-- The balanced-tree reduction loop of `_map_tree`: while more than one
node is on the frontier, replace each pair by `f` of the pair.  An empty
frontier models the `queue[0]` indexing error as `none`. -/
def mapTreeAux (f : List Node → Node) (l : List Node) : Option Node :=
  match l with
  | [] => none
  | [n] => some n
  | a :: b :: rest => mapTreeAux f ((chunks2 (a :: b :: rest)).map f)
termination_by l.length
decreasing_by
  simp only [List.length_map, chunks2_length, List.length_cons]
  omega

/-- `_map_tree` of the source: wrap every input name as an `Input` node
and reduce the resulting frontier pairwise with `f`. -/
def _map_tree (inputs : List String) (f : List Node → Node) : Option Node :=
  mapTreeAux f (inputs.map Node.Input)

/-- `_and` of the source: a singleton chunk passes through, a pair
becomes an `AndGate`.  (Other shapes never arise from `chunks2`.) -/
def _and : List Node → Node
  | [l] => l
  | [l, r] => .AndGate l r
  | _ => .ConstFalse

/-- `_xor` of the source: a singleton chunk passes through, a pair
`(l, r)` becomes NAND(both true) AND NAND(both false). -/
def _xor : List Node → Node
  | [l] => l
  | [l, r] => .AndGate (.Inverter (.AndGate l r))
      (.AndGate (.Inverter l) (.Inverter r) |> .Inverter)
  | _ => .ConstFalse

/-- `and_gate` of the source.  The hash-derived default output name of
the Python code is not modelled; the output name is passed explicitly
(its value never affects the verified properties). -/
def and_gate (inputs : List String) (output : String) : Option AIG :=
  (_map_tree inputs _and).map (fun nd => ⟨inputs, [(output, nd)], [], []⟩)

/-- `_inverted_input` of the source. -/
def _inverted_input (name : String) : Node := .Inverter (.Input name)

/-- `bit_flipper` of the source: forward every input inverted; when an
explicit output list is given its length is asserted equal to the input
list's. -/
def bit_flipper (inputs : List String) (outputs : Option (List String)) : Option AIG :=
  match outputs with
  | none => some ⟨inputs, inputs.zip (inputs.map _inverted_input), [], []⟩
  | some outs =>
      if outs.length = inputs.length then
        some ⟨inputs, outs.zip (inputs.map _inverted_input), [], []⟩
      else none

/-- `identity` of the source: forward every input unchanged.  Note the
source performs no length check; `zip` silently truncates. -/
def identity (inputs : List String) (outputs : Option (List String)) : AIG :=
  ⟨inputs, (outputs.getD inputs).zip (inputs.map Node.Input), [], []⟩

/-- `or_gate` of the source: De Morgan -- flip the inputs, AND them,
flip the single output. -/
def or_gate (inputs : List String) (output : String) : Option AIG := do
  let circ ← and_gate inputs output
  let bfin ← bit_flipper inputs none
  let bfout ← bit_flipper [output] none
  pure (seq (seq bfin circ) bfout)

/-- `parity_gate` of the source: the balanced-tree XOR reduction. -/
def parity_gate (inputs : List String) (output : String) : Option AIG :=
  (_map_tree inputs _xor).map (fun nd => ⟨inputs, [(output, nd)], [], []⟩)

/-- `_ite` of the source: `output = (NOT test OR in1) AND (test OR in0)`
built from two OR gates and one AND gate; asserts the three names
distinct. -/
def _ite (test in1 in0 output : String) : Option AIG :=
  if test ≠ in0 ∧ test ≠ in1 ∧ in0 ≠ in1 then do
    let org1 ← or_gate [test, in1] "true_out"
    let bft ← bit_flipper [test] none
    let true_out := seq bft org1
    let false_out ← or_gate [test, in0] "false_out"
    let tf ← par true_out false_out
    let ag ← and_gate ["true_out", "false_out"] output
    pure (seq tf ag)
  else none

/-- The per-bit multiplexer list `[_ite(test, *args) for args in zip(...)]`:
build each `_ite`, aborting on the first assertion failure. -/
def iteBank (t : String) : List (String × String × String) → Option (List AIG)
  | [] => some []
  | trip :: rest => do
      let c ← _ite t trip.1 trip.2.1 trip.2.2
      let cs ← iteBank t rest
      pure (c :: cs)

/-- `ite` of the source (primed to avoid the Lean builtin): a bank of
per-bit multiplexers combined by parallel composition, guarded by the
source's three assertions. -/
def ite' (test : String) (inputs1 inputs0 outputs : List String) : Option AIG :=
  if 0 < inputs1.length ∧
      (inputs1.length = inputs0.length ∧ inputs0.length = outputs.length) ∧
      (test :: (inputs1 ++ inputs0)).dedup.length = 2 * inputs0.length + 1 then do
    let ites ← iteBank test (inputs1.zip (inputs0.zip outputs))
    match ites with
    | [] => none
    | c :: cs => cs.foldlM (fun acc x => par acc x) c
  else none

/-- `delay` of the source: a bank of registers.  `latches` and `outputs`
default to `inputs`; the four lists are asserted to have equal length;
each latch's next value is its matching input, each output exposes its
matching latch's current value. -/
def delay (inputs : List String) (initials : List Bool)
    (latches outputs : Option (List String)) : Option AIG :=
  let outs := outputs.getD inputs
  let lats := latches.getD inputs
  if inputs.length = initials.length ∧ initials.length = outs.length ∧
      outs.length = lats.length then
    some ⟨inputs, outs.zip (lats.map Node.LatchIn),
          lats.zip (inputs.map Node.Input), lats.zip initials⟩
  else none

/-- Modelled from the spec: a circuit's cones are the set of root nodes
of its `node_map` (§3); represented as a deduplicated list. -/
def AIG.cones (A : AIG) : List Node := (A.node_map.map Prod.snd).dedup

/-- Modelled from the spec: a circuit's latch cones are the set of root
nodes of its `latch_map` (§3); represented as a deduplicated list. -/
def AIG.latch_cones (A : AIG) : List Node := (A.latch_map.map Prod.snd).dedup

/-- The root frontier used by `dfs`: the union of the circuit's cones
and latch cones. -/
def dfsSeeds (A : AIG) : List Node := (A.cones ++ A.latch_cones).dedup

/-- The loop of `dfs`, with an explicit fuel bound (proven sufficient in
`dfsLoop_single_completes` / `dfs_completes`): pop a key; skip it if
emitted; emit it if all its children are emitted; otherwise push it back
below its unemitted children.  Returns the emitted sequence, the emitted
set, the remaining stack and the remaining fuel. -/
def dfsLoop : Nat → List Node → Finset Node → List Node × Finset Node × List Node × Nat
  | 0, stack, em => ([], em, stack, 0)
  | fuel + 1, [], em => ([], em, [], fuel + 1)
  | fuel + 1, n :: rest, em =>
      if n ∈ em then dfsLoop fuel rest em
      else
        let pending := (Node.children n).dedup.filter (fun c => decide (c ∉ em))
        if pending.isEmpty then
          let r := dfsLoop fuel rest (insert n em)
          (n :: r.1, r.2)
        else dfsLoop fuel (pending ++ n :: rest) em

/-- Fuel weight of a node for `dfsLoop`: consuming a stack entry for `n`
never takes more than `dfsW n` iterations. -/
def dfsW : Node → Nat
  | .ConstFalse => 2
  | .Input _ => 2
  | .LatchIn _ => 2
  | .Inverter a => 2 + dfsW a
  | .AndGate a b => 2 + dfsW a + dfsW b

/-- The fuel with which `dfs` runs its loop; proven sufficient for the
loop to drain its stack on every circuit. -/
def dfsFuel (A : AIG) : Nat := ((dfsSeeds A).map dfsW).sum + 1

/-- `dfs` of the source: children-first traversal of the nodes reachable
from the circuit's cones and latch cones. -/
def dfs (A : AIG) : List Node := (dfsLoop (dfsFuel A) (dfsSeeds A) ∅).1

/-- Fuel weight of a node for `depGraphLoop`. -/
def depW : Node → Nat
  | .ConstFalse => 1
  | .Input _ => 1
  | .LatchIn _ => 1
  | .Inverter a => 1 + depW a
  | .AndGate a b => 1 + depW a + depW b

/-- The loop of `_dependency_graph`, with an explicit fuel bound (proven
sufficient in `depGraphLoop_total`): pop a node; if unvisited, record its
children set and push all its children.  The Python stack pops from the
end; the model pops from the head, which permutes the visit order but not
the recorded map. -/
def depGraphLoop :
    Nat → List Node → Finset Node → List (Node × List Node) →
      Option (List (Node × List Node))
  | 0, [], _, deps => some deps
  | 0, _ :: _, _, _ => none
  | _ + 1, [], _, deps => some deps
  | fuel + 1, n :: rest, visited, deps =>
      if n ∈ visited then depGraphLoop fuel rest visited deps
      else depGraphLoop fuel (Node.children n ++ rest) (insert n visited)
        (deps ++ [(n, (Node.children n).dedup)])

/-- `_dependency_graph` of the source: map every node reachable from the
given roots to the set of its immediate children. -/
def _dependency_graph (nodes : List Node) : List (Node × List Node) :=
  (depGraphLoop ((nodes.map depW).sum) nodes ∅ []).getD []

/-- The edge relation of a dependency dictionary: `depEdge data d n`
holds when `d` is listed among the dependencies of `n`. -/
def depEdge {α : Type} (data : List (α × List α)) (d n : α) : Prop :=
  ∃ ds, (n, ds) ∈ data ∧ d ∈ ds

/-- All nodes of a dependency dictionary: keys and listed dependencies. -/
def graphNodes {α : Type} [DecidableEq α] (data : List (α × List α)) : List α :=
  (data.map Prod.fst ++ data.flatMap Prod.snd).dedup

/-- The transposed graph of `topsort`: the nodes that list `d` as a
dependency, in dictionary order. -/
def transposed {α : Type} [DecidableEq α] (data : List (α × List α)) (d : α) : List α :=
  (data.filter (fun p => decide (d ∈ p.2))).map Prod.fst

/-- The declared dependency list of a node (`data.get(node, ())`). -/
def kdeps {α : Type} [DecidableEq α] (data : List (α × List α)) (n : α) : List α :=
  (alookup data n).getD []

/-- The inner loop of Kahn's algorithm: decrement the in-degree of every
dependent of the node just yielded, enqueueing those that reach zero. -/
def decDeps {α : Type} [DecidableEq α] :
    List α → (α → Int) → List α → ((α → Int) × List α)
  | [], deg, queue => (deg, queue)
  | c :: cs, deg, queue =>
      let d := deg c - 1
      decDeps cs (fun x => if x = c then d else deg x)
        (if d = 0 then queue ++ [c] else queue)

/-- The dequeue loop of Kahn's algorithm, with an explicit fuel bound
(proven sufficient under the claim's hypotheses): dequeue a node, yield
it, decrement its dependents. -/
def kahnLoop {α : Type} [DecidableEq α] (dataT : α → List α) :
    Nat → (α → Int) → List α → List α
  | 0, _, _ => []
  | _ + 1, _, [] => []
  | fuel + 1, deg, n :: rest =>
      let s := decDeps (dataT n) deg rest
      n :: kahnLoop dataT fuel s.1 s.2

/-- `topsort` of the source (Kahn's algorithm): build the transposed
graph, compute in-degrees, seed the queue with zero in-degree nodes and
repeatedly dequeue. -/
def topsort {α : Type} [DecidableEq α] (data : List (α × List α)) : List α :=
  let nodes := graphNodes data
  let deg0 : α → Int := fun n => ((kdeps data n).length : Int)
  kahnLoop (transposed data) nodes.length deg0
    (nodes.filter (fun n => decide (deg0 n = 0)))

/-- `eval_order` of the source: the full `topsort` of the dependency
graph of the union of the circuit's cones and latch cones. -/
def eval_order (circ : AIG) : List Node :=
  topsort (_dependency_graph ((circ.cones ++ circ.latch_cones).dedup))

/-! ## Simple gate-algebra claims -/

/-- C9: on a single-element input list, `and_gate` and `parity_gate`
wire the output directly to the `Input` node of that name -- no AND
gate and no inverter is inserted -- so each behaves as identity on one
signal. -/
theorem single_input_passthrough (x o : String) :
    and_gate [x] o = some ⟨[x], [(o, Node.Input x)], [], []⟩ ∧
    parity_gate [x] o = some ⟨[x], [(o, Node.Input x)], [], []⟩ ∧
    ∀ env lat : String → Bool,
      AIG.evalOutput ⟨[x], [(o, Node.Input x)], [], []⟩ env lat o = some (env x) := by
  refine ⟨?_, ?_, fun env lat => ?_⟩ <;>
    simp [and_gate, parity_gate, _map_tree, mapTreeAux, AIG.evalOutput, alookup, evalNode]

/-- C10: on an empty input list, `and_gate`, `or_gate` and `parity_gate`
all fail (the tree reduction indexes an empty frontier) and return no
circuit; the empty case is not mapped to a constant circuit. -/
theorem empty_inputs_error (o : String) :
    and_gate [] o = none ∧ or_gate [] o = none ∧ parity_gate [] o = none := by
  refine ⟨?_, ?_, ?_⟩ <;>
    simp [and_gate, or_gate, parity_gate, _map_tree, mapTreeAux, Option.bind]

/-- C6: `delay` with the four (defaulted) lists of equal length builds
exactly the register bank -- each latch's next value is the `Input` node
of its matching input, each latch its matching initial value, each
output the `LatchIn` node of its matching latch -- and any length
mismatch is rejected at construction time. -/
theorem delay_wiring (inputs : List String) (initials : List Bool)
    (latches outputs : Option (List String)) :
    (inputs.length = initials.length ∧
        initials.length = (outputs.getD inputs).length ∧
        (outputs.getD inputs).length = (latches.getD inputs).length →
      delay inputs initials latches outputs =
        some ⟨inputs,
          (outputs.getD inputs).zip ((latches.getD inputs).map Node.LatchIn),
          (latches.getD inputs).zip (inputs.map Node.Input),
          (latches.getD inputs).zip initials⟩) ∧
    (¬ (inputs.length = initials.length ∧
        initials.length = (outputs.getD inputs).length ∧
        (outputs.getD inputs).length = (latches.getD inputs).length) →
      delay inputs initials latches outputs = none) := by
  constructor <;> intro h <;> simp [delay, h]

/-- C6 witness. -/
theorem delay_wiring_witness :
    delay ["i"] [true] none none =
      some ⟨["i"], [("i", Node.LatchIn "i")], [("i", Node.Input "i")],
            [("i", true)]⟩ ∧
    delay ["i"] [] none none = none := by
  constructor
  · exact (delay_wiring ["i"] [true] none none).1 (by decide)
  · exact (delay_wiring ["i"] [] none none).2 (by decide)

/-- C8 counterexample: `identity` called with a shorter output list does
not raise; it returns a circuit silently truncated by `zip` (the source
has no length assertion in `identity`). -/
theorem identity_mismatch_returns_circuit :
    identity ["a", "b"] (some ["x"]) =
      ⟨["a", "b"], [("x", Node.Input "a")], [], []⟩ := by
  rfl

/-- C8 amended: `bit_flipper` rejects a length mismatch at construction
time and otherwise inverts each input onto its positional output, while
`identity` performs no length check at all -- it always returns the
circuit wiring each output of `zip(outputs, inputs)` to the `Input` node
of its positional input, silently truncating to the shorter list. -/
theorem identity_bit_flipper_length_behavior (inputs outs : List String) :
    identity inputs (some outs) =
      ⟨inputs, outs.zip (inputs.map Node.Input), [], []⟩ ∧
    (outs.length = inputs.length →
      bit_flipper inputs (some outs) =
        some ⟨inputs, outs.zip (inputs.map _inverted_input), [], []⟩) ∧
    (outs.length ≠ inputs.length → bit_flipper inputs (some outs) = none) := by
  refine ⟨rfl, fun h => ?_, fun h => ?_⟩ <;> simp [bit_flipper, h]

/-- C8 amended witness. -/
theorem identity_bit_flipper_length_behavior_witness :
    bit_flipper ["a", "b"] (some ["x"]) = none ∧
    bit_flipper ["a"] (some ["x"]) =
      some ⟨["a"], [("x", _inverted_input "a")], [], []⟩ := by
  constructor
  · exact (identity_bit_flipper_length_behavior ["a", "b"] ["x"]).2.2 (by decide)
  · exact (identity_bit_flipper_length_behavior ["a"] ["x"]).2.1 (by decide)

/-! ## Evaluation of the tree reductions and of composed gates -/

theorem zip_self_map {β : Type} (g : String → β) :
    ∀ l : List String, l.zip (l.map g) = l.map fun i => (i, g i)
  | [] => rfl
  | _ :: rest => by simp [zip_self_map g rest]

theorem alookup_map_self {β : Type} (g : String → β) (l : List String) (x : String) :
    alookup (l.map fun i => (i, g i)) x = if x ∈ l then some (g x) else none := by
  induction l with
  | nil => simp [alookup]
  | cons a rest ih =>
      by_cases hax : a = x
      · subst hax
        simp [alookup]
      · have hxa : ¬ x = a := fun hh => hax hh.symm
        simp [alookup, hax, ih, hxa]

theorem evalNode_substInputs (σ : String → Option Node) (env lat : String → Bool) :
    ∀ nd, evalNode env lat (substInputs σ nd)
      = evalNode (fun n => ((σ n).map (evalNode env lat)).getD (env n)) lat nd
  | .ConstFalse => rfl
  | .Input n => by
      simp only [substInputs, evalNode]
      cases σ n <;> simp [evalNode]
  | .LatchIn _ => rfl
  | .Inverter a => by
      simp [substInputs, evalNode, evalNode_substInputs σ env lat a]
  | .AndGate a b => by
      simp [substInputs, evalNode, evalNode_substInputs σ env lat a,
        evalNode_substInputs σ env lat b]

theorem all_congr_mem {α : Type} {f g : α → Bool} :
    ∀ {l : List α}, (∀ x ∈ l, f x = g x) → l.all f = l.all g
  | [], _ => rfl
  | a :: rest, h => by
      simp only [List.all_cons, h a (by simp)]
      rw [all_congr_mem (fun x hx => h x (by simp [hx]))]

theorem not_all_not_eq_any (env : String → Bool) :
    ∀ l : List String, (! l.all fun i => ! env i) = l.any env
  | [] => rfl
  | a :: rest => by
      simp only [List.all_cons, List.any_cons, Bool.not_and, Bool.not_not,
        not_all_not_eq_any env rest]

theorem foldr_and_eq_all {α : Type} (p : α → Bool) :
    ∀ l : List α, (l.map p).foldr (· && ·) true = l.all p
  | [] => rfl
  | a :: rest => by simp [foldr_and_eq_all p rest]

theorem chunks2_fold_and (env lat : String → Bool) :
    ∀ q : List Node,
      (((chunks2 q).map _and).map (evalNode env lat)).foldr (· && ·) true
        = (q.map (evalNode env lat)).foldr (· && ·) true
  | [] => by simp [chunks2]
  | [a] => by simp [chunks2, _and]
  | a :: b :: rest => by
      simp only [chunks2, List.map_cons, List.foldr_cons, chunks2_fold_and env lat rest]
      simp [_and, evalNode, Bool.and_assoc]

theorem xor_pair_eval (env lat : String → Bool) (a b : Node) :
    evalNode env lat (_xor [a, b])
      = Bool.xor (evalNode env lat a) (evalNode env lat b) := by
  simp only [_xor, evalNode]
  cases evalNode env lat a <;> cases evalNode env lat b <;> rfl

theorem chunks2_fold_xor (env lat : String → Bool) :
    ∀ q : List Node,
      (((chunks2 q).map _xor).map (evalNode env lat)).foldr Bool.xor false
        = (q.map (evalNode env lat)).foldr Bool.xor false
  | [] => by simp [chunks2]
  | [a] => by simp [chunks2, _xor]
  | a :: b :: rest => by
      simp only [chunks2, List.map_cons, List.foldr_cons, chunks2_fold_xor env lat rest,
        xor_pair_eval]
      rw [Bool.xor_assoc]

theorem mapTreeAux_and_spec : ∀ (q : List Node), q ≠ [] →
    ∃ T, mapTreeAux _and q = some T ∧
      ∀ env lat, evalNode env lat T
        = (q.map (evalNode env lat)).foldr (· && ·) true
  | [], h => absurd rfl h
  | [n], _ => ⟨n, by simp [mapTreeAux], fun env lat => by simp⟩
  | a :: b :: rest, _ => by
      have hne : (chunks2 (a :: b :: rest)).map _and ≠ [] := by
        simp [chunks2]
      obtain ⟨T, hT, hTe⟩ := mapTreeAux_and_spec ((chunks2 (a :: b :: rest)).map _and) hne
      refine ⟨T, ?_, fun env lat => ?_⟩
      · rw [mapTreeAux]
        exact hT
      · rw [hTe env lat, chunks2_fold_and]
termination_by q => q.length
decreasing_by
  simp only [List.length_map, chunks2_length, List.length_cons]
  omega

theorem mapTreeAux_xor_spec : ∀ (q : List Node), q ≠ [] →
    ∃ T, mapTreeAux _xor q = some T ∧
      ∀ env lat, evalNode env lat T
        = (q.map (evalNode env lat)).foldr Bool.xor false
  | [], h => absurd rfl h
  | [n], _ => ⟨n, by simp [mapTreeAux], fun env lat => by simp⟩
  | a :: b :: rest, _ => by
      have hne : (chunks2 (a :: b :: rest)).map _xor ≠ [] := by
        simp [chunks2]
      obtain ⟨T, hT, hTe⟩ := mapTreeAux_xor_spec ((chunks2 (a :: b :: rest)).map _xor) hne
      refine ⟨T, ?_, fun env lat => ?_⟩
      · rw [mapTreeAux]
        exact hT
      · rw [hTe env lat, chunks2_fold_xor]
termination_by q => q.length
decreasing_by
  simp only [List.length_map, chunks2_length, List.length_cons]
  omega

theorem filter_isNone_self {β : Type} (g : String → β) (l : List String) :
    (l.filter fun n => (alookup (l.map fun i => (i, g i)) n).isNone) = [] := by
  rw [List.filter_eq_nil_iff]
  intro n hn
  simp [alookup_map_self, hn]

theorem filter_key_not_mem_self {β : Type} (g : String → β) (l : List String) :
    ((l.map fun i => (i, g i)).filter fun p => decide (p.1 ∉ l)) = [] := by
  rw [List.filter_eq_nil_iff]
  intro p hp
  simp only [List.mem_map] at hp
  obtain ⟨i, hi, rfl⟩ := hp
  simp [hi]

theorem and_gate_spec (l : List String) (o : String) (h : l ≠ []) :
    ∃ N, and_gate l o = some ⟨l, [(o, N)], [], []⟩ ∧
      ∀ env lat, evalNode env lat N = l.all env := by
  obtain ⟨T, hT, hTe⟩ := mapTreeAux_and_spec (l.map Node.Input) (by simpa using h)
  refine ⟨T, by simp [and_gate, _map_tree, hT], fun env lat => ?_⟩
  rw [hTe env lat, List.map_map,
    show (evalNode env lat ∘ Node.Input) = env from rfl]
  exact foldr_and_eq_all env l

theorem parity_gate_spec (l : List String) (o : String) (h : l ≠ []) :
    ∃ N, parity_gate l o = some ⟨l, [(o, N)], [], []⟩ ∧
      ∀ env lat, evalNode env lat N = (l.map env).foldr Bool.xor false := by
  obtain ⟨T, hT, hTe⟩ := mapTreeAux_xor_spec (l.map Node.Input) (by simpa using h)
  refine ⟨T, by simp [parity_gate, _map_tree, hT], fun env lat => ?_⟩
  rw [hTe env lat, List.map_map,
    show (evalNode env lat ∘ Node.Input) = env from rfl]

theorem or_gate_spec (l : List String) (o : String) (h : l ≠ []) :
    ∃ N, or_gate l o = some ⟨l, [(o, N)], [], []⟩ ∧
      ∀ env lat, evalNode env lat N = l.any env := by
  obtain ⟨T, hT, hTe⟩ := mapTreeAux_and_spec (l.map Node.Input) (by simpa using h)
  have hand : and_gate l o = some ⟨l, [(o, T)], [], []⟩ := by
    simp [and_gate, _map_tree, hT]
  have hbf : bit_flipper l none
      = some ⟨l, l.map (fun i => (i, _inverted_input i)), [], []⟩ := by
    simp [bit_flipper, zip_self_map]
  have hbfo : bit_flipper [o] none
      = some ⟨[o], [(o, _inverted_input o)], [], []⟩ := by
    simp [bit_flipper, zip_self_map]
  have hseq1 : seq ⟨l, l.map (fun i => (i, _inverted_input i)), [], []⟩ ⟨l, [(o, T)], [], []⟩
      = ⟨l, [(o, substInputs (alookup (l.map fun i => (i, _inverted_input i))) T)], [], []⟩ := by
    simp [seq, filter_isNone_self, filter_key_not_mem_self]
  have hseq2 : seq
      ⟨l, [(o, substInputs (alookup (l.map fun i => (i, _inverted_input i))) T)], [], []⟩
      ⟨[o], [(o, _inverted_input o)], [], []⟩
      = ⟨l, [(o, Node.Inverter
          (substInputs (alookup (l.map fun i => (i, _inverted_input i))) T))], [], []⟩ := by
    simp [seq, alookup, _inverted_input, substInputs]
  refine ⟨Node.Inverter (substInputs (alookup (l.map fun i => (i, _inverted_input i))) T),
    ?_, fun env lat => ?_⟩
  · simp only [or_gate, hand, hbf, hbfo, Option.bind_eq_bind, Option.some_bind]
    rw [hseq1, hseq2]
    rfl
  · simp only [evalNode]
    rw [evalNode_substInputs, hTe, List.map_map]
    have hmap : ∀ i ∈ l,
        (evalNode (fun n =>
            ((alookup (l.map fun i => (i, _inverted_input i)) n).map
              (evalNode env lat)).getD (env n)) lat ∘ Node.Input) i
          = (fun i => ! env i) i := by
      intro i hi
      simp [evalNode, alookup_map_self, hi, _inverted_input]
    rw [foldr_and_eq_all, all_congr_mem hmap]
    exact not_all_not_eq_any env l

/-- C1: for every non-empty input list and every Boolean assignment, the
single output of `and_gate` is the conjunction of the input values, the
output of `or_gate` their disjunction, and the output of `parity_gate`
their parity (XOR reduction). -/
theorem gate_reduction_correct (inputs : List String) (output : String)
    (env lat : String → Bool) (h : inputs ≠ []) :
    (∃ A, and_gate inputs output = some A ∧
        A.evalOutput env lat output = some (inputs.all env)) ∧
    (∃ A, or_gate inputs output = some A ∧
        A.evalOutput env lat output = some (inputs.any env)) ∧
    (∃ A, parity_gate inputs output = some A ∧
        A.evalOutput env lat output = some ((inputs.map env).foldr Bool.xor false)) := by
  obtain ⟨N1, h1, h1e⟩ := and_gate_spec inputs output h
  obtain ⟨N2, h2, h2e⟩ := or_gate_spec inputs output h
  obtain ⟨N3, h3, h3e⟩ := parity_gate_spec inputs output h
  refine ⟨⟨_, h1, ?_⟩, ⟨_, h2, ?_⟩, ⟨_, h3, ?_⟩⟩ <;>
    simp [AIG.evalOutput, alookup, h1e, h2e, h3e]

/-- C1 witness. -/
theorem gate_reduction_correct_witness :
    (∃ A, and_gate ["a", "b"] "o" = some A ∧
        A.evalOutput (fun s => s == "a") (fun _ => false) "o"
          = some (["a", "b"].all (fun s => s == "a"))) ∧
    (∃ A, or_gate ["a", "b"] "o" = some A ∧
        A.evalOutput (fun s => s == "a") (fun _ => false) "o"
          = some (["a", "b"].any (fun s => s == "a"))) ∧
    (∃ A, parity_gate ["a", "b"] "o" = some A ∧
        A.evalOutput (fun s => s == "a") (fun _ => false) "o"
          = some ((["a", "b"].map (fun s => s == "a")).foldr Bool.xor false)) :=
  gate_reduction_correct ["a", "b"] "o" (fun s => s == "a") (fun _ => false)
    (by decide)

/-! ## The multiplexer -/

/-- The concrete node `_ite` wires for the triple `(in1, in0, output)`:
`(NOT test OR in1) AND (test OR in0)`, with each OR expressed by De
Morgan from AND and NOT exactly as the composition builds it. -/
def muxNode (t a b : String) : Node :=
  .AndGate
    (.Inverter (.AndGate (.Inverter (.Inverter (.Input t))) (.Inverter (.Input a))))
    (.Inverter (.AndGate (.Inverter (.Input t)) (.Inverter (.Input b))))

theorem muxNode_eval (t a b : String) (env lat : String → Bool) :
    evalNode env lat (muxNode t a b)
      = ((!(env t) || env a) && (env t || env b)) := by
  simp only [muxNode, evalNode]
  cases env t <;> cases env a <;> cases env b <;> rfl

theorem or_gate_pair (x y : String) (hxy : x ≠ y) (o' : String) :
    or_gate [x, y] o' = some ⟨[x, y],
      [(o', Node.Inverter
        (.AndGate (.Inverter (.Input x)) (.Inverter (.Input y))))], [], []⟩ := by
  simp [or_gate, and_gate, _map_tree, mapTreeAux, chunks2, _and, bit_flipper,
    seq, alookup, substInputs, _inverted_input, hxy, Option.bind, List.zip]

theorem _ite_spec (t a b o : String) (htb : t ≠ b) (hta : t ≠ a) (hba : b ≠ a) :
    _ite t a b o = some ⟨[t, a, t, b], [(o, muxNode t a b)], [], []⟩ := by
  have h1 := or_gate_pair t a hta "true_out"
  have h2 := or_gate_pair t b htb "false_out"
  have hand : and_gate ["true_out", "false_out"] o
      = some ⟨["true_out", "false_out"],
          [(o, Node.AndGate (.Input "true_out") (.Input "false_out"))], [], []⟩ := by
    simp [and_gate, _map_tree, mapTreeAux, chunks2, _and]
  simp only [_ite, htb, hta, hba, ne_eq, not_false_eq_true, and_self, if_true,
    h1, h2, hand, Option.bind_eq_bind, Option.some_bind, if_pos]
  simp [seq, par, alookup, substInputs, _inverted_input, hta, htb, muxNode,
    bit_flipper, List.zip, Option.bind]

/-- The list of per-bit multiplexer circuits `ite` builds. -/
theorem iteBank_spec (t : String) : ∀ (i1 i0 outs : List String),
    (∀ x ∈ i1, t ≠ x) → (∀ x ∈ i0, t ≠ x) →
    (∀ x ∈ i0, ∀ y ∈ i1, x ≠ y) →
    i1.length = i0.length → i0.length = outs.length →
    iteBank t (i1.zip (i0.zip outs))
      = some ((i1.zip (i0.zip outs)).map
          (fun p => ⟨[t, p.1, t, p.2.1], [(p.2.2, muxNode t p.1 p.2.1)], [], []⟩))
  | [], [], outs, _, _, _, _, _ => by simp [iteBank]
  | [], _ :: _, _, _, _, _, hl, _ => by simp at hl
  | _ :: _, [], _, _, _, _, hl, _ => by simp at hl
  | _ :: _, _ :: _, [], _, _, _, _, hl => by simp at hl
  | a :: i1, b :: i0, o :: outs, h1, h0, hcross, hl1, hl2 => by
      have hta : t ≠ a := h1 a (by simp)
      have htb : t ≠ b := h0 b (by simp)
      have hba : b ≠ a := hcross b (by simp) a (by simp)
      have ih := iteBank_spec t i1 i0 outs
        (fun x hx => h1 x (by simp [hx])) (fun x hx => h0 x (by simp [hx]))
        (fun x hx y hy => hcross x (by simp [hx]) y (by simp [hy]))
        (by simpa using hl1) (by simpa using hl2)
      simp only [List.zip] at ih
      simp [iteBank, _ite_spec t a b o htb hta hba, ih, Option.bind, List.zip]

theorem par_some (A B : AIG)
    (h : ∀ k ∈ A.node_map.map Prod.fst, k ∉ B.node_map.map Prod.fst) :
    par A B = some ⟨A.inputs ++ B.inputs, A.node_map ++ B.node_map,
      A.latch_map ++ B.latch_map, A.latch2init ++ B.latch2init⟩ := by
  rw [par, if_neg]
  simp only [List.any_eq_true, not_exists, not_and]
  intro k hk
  simp [h k hk]

theorem par_none (A B : AIG)
    (h : ∃ k ∈ A.node_map.map Prod.fst, k ∈ B.node_map.map Prod.fst) :
    par A B = none := by
  rw [par, if_pos]
  simp only [List.any_eq_true]
  obtain ⟨k, hk, hk'⟩ := h
  exact ⟨k, hk, by simp [hk']⟩

theorem foldlM_par_spec : ∀ (cs : List AIG) (acc : AIG),
    ((acc.node_map ++ (cs.map AIG.node_map).flatten).map Prod.fst).Nodup →
    ∃ C, cs.foldlM (fun acc x => par acc x) acc = some C ∧
      C.node_map = acc.node_map ++ (cs.map AIG.node_map).flatten
  | [], acc, _ => ⟨acc, by simp, by simp⟩
  | c :: cs, acc, h => by
      have h' : (acc.node_map.map Prod.fst ++ (c.node_map.map Prod.fst
          ++ ((cs.map AIG.node_map).flatten.map Prod.fst))).Nodup := by
        simpa [List.map_append] using h
      rw [List.nodup_append] at h'
      have hdisj : ∀ k ∈ acc.node_map.map Prod.fst, k ∉ c.node_map.map Prod.fst := by
        intro k hk hk'
        exact h'.2.2 hk (List.mem_append_left _ hk')
      have hpar := par_some acc c hdisj
      have hrec := foldlM_par_spec cs
        ⟨acc.inputs ++ c.inputs, acc.node_map ++ c.node_map,
          acc.latch_map ++ c.latch_map, acc.latch2init ++ c.latch2init⟩
        (by simpa [List.append_assoc] using h)
      obtain ⟨C, hC, hCm⟩ := hrec
      refine ⟨C, ?_, ?_⟩
      · simp [List.foldlM_cons, hpar, hC]
      · simpa [List.append_assoc] using hCm

theorem flatten_map_singleton {α β : Type} (g : α → β) :
    ∀ l : List α, (l.map (fun x => [g x])).flatten = l.map g
  | [] => rfl
  | _ :: rest => by simp [flatten_map_singleton g rest]

theorem map_zip_third : ∀ (i1 i0 outs : List String),
    i1.length = i0.length → i0.length = outs.length →
    (i1.zip (i0.zip outs)).map (fun p => p.2.2) = outs
  | [], [], [], _, _ => rfl
  | [], _ :: _, _, hl, _ => by simp at hl
  | _ :: _, [], _, hl, _ => by simp at hl
  | _ :: _, _ :: _, [], _, hl => by simp at hl
  | a :: i1, b :: i0, o :: outs, hl1, hl2 => by
      simp [map_zip_third i1 i0 outs (by simpa using hl1) (by simpa using hl2)]

theorem alookup_muxmap (t : String) : ∀ (i1 i0 outs : List String) (k : Nat)
    (hl1 : i1.length = i0.length) (hl2 : i0.length = outs.length)
    (houts : outs.Nodup)
    (hk : k < outs.length) (hk1 : k < i1.length) (hk0 : k < i0.length),
    alookup ((i1.zip (i0.zip outs)).map (fun p => (p.2.2, muxNode t p.1 p.2.1)))
        (outs[k]) = some (muxNode t (i1[k]) (i0[k]))
  | [], [], [], k, _, _, _, hk, _, _ => by simp at hk
  | [], _ :: _, _, _, hl, _, _, _, _, _ => by simp at hl
  | _ :: _, [], _, _, hl, _, _, _, _, _ => by simp at hl
  | _ :: _, _ :: _, [], _, _, hl, _, _, _, _ => by simp at hl
  | a :: i1, b :: i0, o :: outs, 0, hl1, hl2, houts, hk, hk1, hk0 => by
      simp [alookup]
  | a :: i1, b :: i0, o :: outs, k + 1, hl1, hl2, houts, hk, hk1, hk0 => by
      have hko : k < outs.length := by simpa using hk
      have hne : ¬ o = outs[k] := by
        intro heq
        exact (List.nodup_cons.mp houts).1 (heq ▸ List.getElem_mem hko)
      have ih := alookup_muxmap t i1 i0 outs k (by simpa using hl1)
        (by simpa using hl2) (List.nodup_cons.mp houts).2
        hko (by simpa using hk1) (by simpa using hk0)
      simp only [List.zip] at ih
      simpa [alookup, hne, List.zip] using ih

theorem foldlM_par_none : ∀ (cs : List AIG) (acc : AIG),
    (acc.node_map.map Prod.fst).Nodup →
    (∀ c ∈ cs, (c.node_map.map Prod.fst).Nodup) →
    ¬ ((acc.node_map ++ (cs.map AIG.node_map).flatten).map Prod.fst).Nodup →
    cs.foldlM (fun acc x => par acc x) acc = none
  | [], acc, hacc, _, hbad => absurd (by simpa using hacc) hbad
  | c :: cs, acc, hacc, hall, hbad => by
      by_cases hcol : ∃ k ∈ acc.node_map.map Prod.fst, k ∈ c.node_map.map Prod.fst
      · simp [List.foldlM_cons, par_none acc c hcol]
      · push_neg at hcol
        have hpar := par_some acc c hcol
        have hacc' : (((⟨acc.inputs ++ c.inputs, acc.node_map ++ c.node_map,
            acc.latch_map ++ c.latch_map, acc.latch2init ++ c.latch2init⟩ : AIG)).node_map.map
              Prod.fst).Nodup := by
          simp only [List.map_append, List.nodup_append]
          exact ⟨hacc, hall c (by simp), fun a ha ha' => hcol a ha ha'⟩
        have hbad' : ¬ ((((⟨acc.inputs ++ c.inputs, acc.node_map ++ c.node_map,
            acc.latch_map ++ c.latch_map, acc.latch2init ++ c.latch2init⟩ : AIG)).node_map
              ++ (cs.map AIG.node_map).flatten).map Prod.fst).Nodup := by
          intro hcontra
          exact hbad (by simpa [List.append_assoc] using hcontra)
        have := foldlM_par_none cs _ hacc' (fun x hx => hall x (by simp [hx])) hbad'
        simp [List.foldlM_cons, hpar, this]

theorem muxmaps_flatten (t : String) : ∀ z : List (String × String × String),
    ((z.map (fun p =>
        (⟨[t, p.1, t, p.2.1], [(p.2.2, muxNode t p.1 p.2.1)], [], []⟩ : AIG))).map
      AIG.node_map).flatten
      = z.map (fun p => (p.2.2, muxNode t p.1 p.2.1))
  | [] => rfl
  | q :: z => by
      simp only [List.map_cons, List.flatten_cons, muxmaps_flatten t z]
      rfl

theorem fst_of_muxpairs (t : String) : ∀ z : List (String × String × String),
    (z.map (fun p => (p.2.2, muxNode t p.1 p.2.1))).map Prod.fst
      = z.map (fun p => p.2.2)
  | [] => rfl
  | q :: z => by simp [fst_of_muxpairs t z]

/-- C2: under the preconditions of `ite` (non-empty equal-length lists,
distinct required names), every output of the resulting circuit is the
multiplexer `(NOT test OR in1) AND (test OR in0)` of its aligned triple,
hence equals `in1` when `test = 1` and `in0` when `test = 0`. -/
theorem ite_mux_correct (t : String) (i1 i0 outs : List String)
    (env lat : String → Bool)
    (hne : i1 ≠ []) (hl1 : i1.length = i0.length) (hl2 : i0.length = outs.length)
    (hdist : (t :: (i1 ++ i0)).Nodup) (houts : outs.Nodup) :
    ∃ C, ite' t i1 i0 outs = some C ∧
      ∀ (k : Nat) (hk : k < outs.length) (hk1 : k < i1.length) (hk0 : k < i0.length),
        C.evalOutput env lat (outs[k])
          = some (if env t then env (i1[k]) else env (i0[k])) := by
  have hguard : 0 < i1.length ∧
      (i1.length = i0.length ∧ i0.length = outs.length) ∧
      (t :: (i1 ++ i0)).dedup.length = 2 * i0.length + 1 := by
    refine ⟨List.length_pos.mpr hne, ⟨hl1, hl2⟩, ?_⟩
    rw [List.dedup_eq_self.mpr hdist]
    simp [← hl1]
    omega
  have hdc := List.nodup_cons.mp hdist
  have hda := List.nodup_append.mp hdc.2
  have h1 : ∀ x ∈ i1, t ≠ x := fun x hx heq =>
    hdc.1 (List.mem_append_left _ (heq ▸ hx))
  have h0 : ∀ x ∈ i0, t ≠ x := fun x hx heq =>
    hdc.1 (List.mem_append_right _ (heq ▸ hx))
  have hcross : ∀ x ∈ i0, ∀ y ∈ i1, x ≠ y := fun x hx y hy heq =>
    hda.2.2 hy (heq ▸ hx)
  have hbank := iteBank_spec t i1 i0 outs h1 h0 hcross hl1 hl2
  rcases i1 with _ | ⟨a, i1⟩
  · exact absurd rfl hne
  rcases i0 with _ | ⟨b, i0⟩
  · simp at hl1
  rcases outs with _ | ⟨o, outs⟩
  · simp at hl2
  have hkeys : (((⟨[t, a, t, b], [(o, muxNode t a b)], [], []⟩ : AIG)).node_map
      ++ (((i1.zip (i0.zip outs)).map
        (fun p => (⟨[t, p.1, t, p.2.1], [(p.2.2, muxNode t p.1 p.2.1)], [], []⟩ : AIG))).map
          AIG.node_map).flatten).map Prod.fst
      = (o :: outs) := by
    rw [muxmaps_flatten]
    simp only [List.singleton_append, List.map_cons]
    rw [fst_of_muxpairs,
      map_zip_third i1 i0 outs (by simpa using hl1) (by simpa using hl2)]
  obtain ⟨C, hC, hCm⟩ := foldlM_par_spec
    ((i1.zip (i0.zip outs)).map
      (fun p => (⟨[t, p.1, t, p.2.1], [(p.2.2, muxNode t p.1 p.2.1)], [], []⟩ : AIG)))
    ⟨[t, a, t, b], [(o, muxNode t a b)], [], []⟩
    (by rw [hkeys]; exact houts)
  refine ⟨C, ?_, fun k hk hk1 hk0 => ?_⟩
  · rw [ite', if_pos hguard]
    simp only [List.zip, List.zipWith_cons_cons] at hbank
    simp only [List.zip, List.zipWith_cons_cons]
    rw [hbank]
    simpa [List.zip] using hC
  · have hCm' : C.node_map = ((a :: i1).zip ((b :: i0).zip (o :: outs))).map
        (fun p => (p.2.2, muxNode t p.1 p.2.1)) := by
      rw [hCm, muxmaps_flatten]
      simp [List.zip]
    rw [AIG.evalOutput, hCm',
      alookup_muxmap t (a :: i1) (b :: i0) (o :: outs) k hl1 hl2 houts hk hk1 hk0]
    simp only [Option.map]
    rw [muxNode_eval]
    cases env t <;> simp

/-- C2 witness. -/
theorem ite_mux_correct_witness :
    ∃ C, ite' "t" ["a", "c"] ["b", "d"] ["o", "p"] = some C ∧
      ∀ (k : Nat) (hk : k < (["o", "p"] : List String).length)
        (hk1 : k < (["a", "c"] : List String).length)
        (hk0 : k < (["b", "d"] : List String).length),
        C.evalOutput (fun s => s == "t" || s == "a" || s == "d") (fun _ => false)
            ((["o", "p"] : List String)[k])
          = some (if (fun s : String => s == "t" || s == "a" || s == "d") "t"
              then (fun s : String => s == "t" || s == "a" || s == "d")
                ((["a", "c"] : List String)[k])
              else (fun s : String => s == "t" || s == "a" || s == "d")
                ((["b", "d"] : List String)[k])) :=
  ite_mux_correct "t" ["a", "c"] ["b", "d"] ["o", "p"]
    (fun s => s == "t" || s == "a" || s == "d") (fun _ => false)
    (by decide) (by decide) (by decide) (by decide) (by decide)

/-- C7: whenever the required names of `ite` are not distinct -- the
`2n+1` input-side names `{test} ∪ inputs1 ∪ inputs0` pairwise distinct
and the output names pairwise distinct -- the call fails at construction
time (the source's assertion for the input side, the parallel
composition's output-collision error for duplicated outputs) and no
circuit is returned; nothing is silently truncated. -/
theorem ite_distinctness_contract (t : String) (i1 i0 outs : List String)
    (hviol : ¬ ((t :: (i1 ++ i0)).Nodup ∧ outs.Nodup)) :
    ite' t i1 i0 outs = none := by
  by_cases hguard : 0 < i1.length ∧
      (i1.length = i0.length ∧ i0.length = outs.length) ∧
      (t :: (i1 ++ i0)).dedup.length = 2 * i0.length + 1
  · obtain ⟨hpos, ⟨hl1, hl2⟩, hded⟩ := hguard
    have hdist : (t :: (i1 ++ i0)).Nodup := by
      have hlen : (t :: (i1 ++ i0)).dedup.length = (t :: (i1 ++ i0)).length := by
        simp only [hded, List.length_cons, List.length_append]
        omega
      have heq : (t :: (i1 ++ i0)).dedup = t :: (i1 ++ i0) :=
        (List.dedup_sublist _).eq_of_length hlen
      rw [← heq]
      exact List.nodup_dedup _
    have houts : ¬ outs.Nodup := fun h => hviol ⟨hdist, h⟩
    have hdc := List.nodup_cons.mp hdist
    have hda := List.nodup_append.mp hdc.2
    have h1 : ∀ x ∈ i1, t ≠ x := fun x hx heq =>
      hdc.1 (List.mem_append_left _ (heq ▸ hx))
    have h0 : ∀ x ∈ i0, t ≠ x := fun x hx heq =>
      hdc.1 (List.mem_append_right _ (heq ▸ hx))
    have hcross : ∀ x ∈ i0, ∀ y ∈ i1, x ≠ y := fun x hx y hy heq =>
      hda.2.2 hy (heq ▸ hx)
    have hbank := iteBank_spec t i1 i0 outs h1 h0 hcross hl1 hl2
    rcases i1 with _ | ⟨a, i1⟩
    · simp at hpos
    rcases i0 with _ | ⟨b, i0⟩
    · simp at hl1
    rcases outs with _ | ⟨o, outs⟩
    · simp at hl2
    have hkeys : (((⟨[t, a, t, b], [(o, muxNode t a b)], [], []⟩ : AIG)).node_map
        ++ (((i1.zip (i0.zip outs)).map
          (fun p => (⟨[t, p.1, t, p.2.1], [(p.2.2, muxNode t p.1 p.2.1)], [], []⟩ : AIG))).map
            AIG.node_map).flatten).map Prod.fst
        = (o :: outs) := by
      rw [muxmaps_flatten]
      simp only [List.singleton_append, List.map_cons]
      rw [fst_of_muxpairs,
        map_zip_third i1 i0 outs (by simpa using hl1) (by simpa using hl2)]
    have hfold := foldlM_par_none
      ((i1.zip (i0.zip outs)).map
        (fun p => (⟨[t, p.1, t, p.2.1], [(p.2.2, muxNode t p.1 p.2.1)], [], []⟩ : AIG)))
      ⟨[t, a, t, b], [(o, muxNode t a b)], [], []⟩
      (by simp)
      (by
        intro c hc
        simp only [List.mem_map] at hc
        obtain ⟨p, _, rfl⟩ := hc
        simp)
      (by rw [hkeys]; exact houts)
    rw [ite', if_pos ⟨hpos, ⟨hl1, hl2⟩, hded⟩]
    simp only [List.zip, List.zipWith_cons_cons] at hbank
    simp only [List.zip, List.zipWith_cons_cons]
    rw [hbank]
    simpa [List.zip] using hfold
  · rw [ite', if_neg hguard]

/-- C7 witness. -/
theorem ite_distinctness_contract_witness :
    ite' "t" ["a", "c"] ["b", "d"] ["o", "o"] = none ∧
    ite' "t" ["a", "a"] ["b", "d"] ["o", "p"] = none := by
  constructor
  · exact ite_distinctness_contract "t" ["a", "c"] ["b", "d"] ["o", "o"] (by decide)
  · exact ite_distinctness_contract "t" ["a", "a"] ["b", "d"] ["o", "p"] (by decide)

/-! ## The dependency graph builder -/

theorem self_mem_reachL : ∀ n : Node, n ∈ reachL n
  | .ConstFalse => by simp [reachL]
  | .Input _ => by simp [reachL]
  | .LatchIn _ => by simp [reachL]
  | .Inverter _ => by simp [reachL]
  | .AndGate _ _ => by simp [reachL]

theorem reachL_children : ∀ (n c : Node), c ∈ Node.children n →
    ∀ x ∈ reachL c, x ∈ reachL n
  | .ConstFalse, c, hc => by simp [Node.children] at hc
  | .Input _, c, hc => by simp [Node.children] at hc
  | .LatchIn _, c, hc => by simp [Node.children] at hc
  | .Inverter a, c, hc => by
      simp only [Node.children, List.mem_singleton] at hc
      subst hc
      intro x hx
      simp [reachL, hx]
  | .AndGate a b, c, hc => by
      simp only [Node.children, List.mem_cons, List.mem_singleton,
        List.not_mem_nil, or_false] at hc
      intro x hx
      rcases hc with rfl | rfl <;> simp [reachL, hx]

theorem closed_reach (P : Node → Prop)
    (hP : ∀ v, P v → ∀ c ∈ Node.children v, P c) :
    ∀ n, P n → ∀ x ∈ reachL n, P x
  | .ConstFalse, hn, x, hx => by
      simp only [reachL, List.mem_singleton] at hx
      exact hx ▸ hn
  | .Input _, hn, x, hx => by
      simp only [reachL, List.mem_singleton] at hx
      exact hx ▸ hn
  | .LatchIn _, hn, x, hx => by
      simp only [reachL, List.mem_singleton] at hx
      exact hx ▸ hn
  | .Inverter a, hn, x, hx => by
      simp only [reachL, List.mem_cons] at hx
      rcases hx with rfl | hx
      · exact hn
      · exact closed_reach P hP a (hP _ hn a (by simp [Node.children])) x hx
  | .AndGate a b, hn, x, hx => by
      simp only [reachL, List.mem_cons, List.mem_append] at hx
      rcases hx with rfl | hx | hx
      · exact hn
      · exact closed_reach P hP a (hP _ hn a (by simp [Node.children])) x hx
      · exact closed_reach P hP b (hP _ hn b (by simp [Node.children])) x hx

theorem depW_pos : ∀ n : Node, 1 ≤ depW n
  | .ConstFalse => le_refl 1
  | .Input _ => le_refl 1
  | .LatchIn _ => le_refl 1
  | .Inverter a => by unfold depW; omega
  | .AndGate a b => by unfold depW; omega

theorem depW_children : ∀ n : Node, ((Node.children n).map depW).sum + 1 = depW n
  | .ConstFalse => rfl
  | .Input _ => rfl
  | .LatchIn _ => rfl
  | .Inverter a => by simp [Node.children, depW]; omega
  | .AndGate a b => by simp [Node.children, depW]; omega

/-- Fuel cost of one stack entry of `depGraphLoop`. -/
def depV (vis : Finset Node) (k : Node) : Nat := if k ∈ vis then 1 else depW k

/-- Total fuel cost of a `depGraphLoop` state. -/
def depPhi (vis : Finset Node) (q : List Node) : Nat := (q.map (depV vis)).sum

theorem depV_pos (vis : Finset Node) (k : Node) : 1 ≤ depV vis k := by
  unfold depV
  split
  · exact le_refl 1
  · exact depW_pos k

theorem depV_le_depW (vis : Finset Node) (k : Node) : depV vis k ≤ depW k := by
  unfold depV
  split
  · exact depW_pos k
  · exact le_refl _

theorem depV_mono {vis vis' : Finset Node} (h : vis ⊆ vis') (k : Node) :
    depV vis' k ≤ depV vis k := by
  unfold depV
  by_cases hk : k ∈ vis
  · simp [hk, h hk]
  · split
    · exact depW_pos k
    · exact le_refl _

theorem depPhi_mono {vis vis' : Finset Node} (h : vis ⊆ vis') (q : List Node) :
    depPhi vis' q ≤ depPhi vis q :=
  List.sum_le_sum (fun k _ => depV_mono h k)

theorem depPhi_append (vis : Finset Node) (q₁ q₂ : List Node) :
    depPhi vis (q₁ ++ q₂) = depPhi vis q₁ + depPhi vis q₂ := by
  simp [depPhi]

theorem depGraphLoop_spec : ∀ (fuel : Nat) (q : List Node) (vis : Finset Node)
    (deps : List (Node × List Node)),
    depPhi vis q ≤ fuel →
    (deps.map Prod.fst).Nodup →
    (∀ x, x ∈ deps.map Prod.fst ↔ x ∈ vis) →
    (∀ p ∈ deps, p.2 = (Node.children p.1).dedup) →
    (∀ v ∈ vis, ∀ c ∈ Node.children v, c ∈ vis ∨ c ∈ q) →
    ∃ d, depGraphLoop fuel q vis deps = some d ∧
      (d.map Prod.fst).Nodup ∧
      (∀ p ∈ d, p.2 = (Node.children p.1).dedup) ∧
      (∀ x ∈ vis, x ∈ d.map Prod.fst) ∧
      (∀ k ∈ q, k ∈ d.map Prod.fst) ∧
      (∀ x ∈ d.map Prod.fst, ∀ c ∈ Node.children x, c ∈ d.map Prod.fst) ∧
      (∀ x ∈ d.map Prod.fst, x ∈ vis ∨ ∃ k ∈ q, x ∈ reachL k) := by
  intro fuel
  induction fuel with
  | zero =>
      intro q vis deps hphi hnd hsync hval hclos
      cases q with
      | nil =>
          refine ⟨deps, rfl, hnd, hval, fun x hx => (hsync x).mpr hx,
            fun k hk => by simp at hk, fun x hx c hc => ?_, fun x hx => .inl ((hsync x).mp hx)⟩
          rcases hclos x ((hsync x).mp hx) c hc with h | h
          · exact (hsync c).mpr h
          · simp at h
      | cons n rest =>
          exfalso
          have h1 := depV_pos vis n
          have : depPhi vis (n :: rest) = depV vis n + depPhi vis rest := by
            simp [depPhi]
          omega
  | succ fuel ih =>
      intro q vis deps hphi hnd hsync hval hclos
      cases q with
      | nil =>
          refine ⟨deps, rfl, hnd, hval, fun x hx => (hsync x).mpr hx,
            fun k hk => by simp at hk, fun x hx c hc => ?_, fun x hx => .inl ((hsync x).mp hx)⟩
          rcases hclos x ((hsync x).mp hx) c hc with h | h
          · exact (hsync c).mpr h
          · simp at h
      | cons n rest =>
          have hphic : depPhi vis (n :: rest) = depV vis n + depPhi vis rest := by
            simp [depPhi]
          by_cases hn : n ∈ vis
          · have hv1 : depV vis n = 1 := by simp [depV, hn]
            obtain ⟨d, hd, c2, c3, c4, c5, c6, c7⟩ := ih rest vis deps
              (by omega) hnd hsync hval
              (fun v hv c hc => by
                rcases hclos v hv c hc with h | h
                · exact .inl h
                · rcases List.mem_cons.mp h with rfl | h
                  · exact .inl hn
                  · exact .inr h)
            refine ⟨d, ?_, c2, c3, c4, fun k hk => ?_, c6, fun x hx => ?_⟩
            · rw [depGraphLoop, if_pos hn]
              exact hd
            · rcases List.mem_cons.mp hk with rfl | hk
              · exact c4 k hn
              · exact c5 k hk
            · rcases c7 x hx with h | ⟨k, hk, hr⟩
              · exact .inl h
              · exact .inr ⟨k, by simp [hk], hr⟩
          · have hvW : depV vis n = depW n := by simp [depV, hn]
            have hsum : depPhi (insert n vis) (Node.children n ++ rest) ≤ fuel := by
              rw [depPhi_append]
              have h1 : depPhi (insert n vis) (Node.children n)
                  ≤ ((Node.children n).map depW).sum :=
                List.sum_le_sum (fun k _ => depV_le_depW _ k)
              have h2 : depPhi (insert n vis) rest ≤ depPhi vis rest :=
                depPhi_mono (Finset.subset_insert n vis) rest
              have h3 := depW_children n
              omega
            obtain ⟨d, hd, c2, c3, c4, c5, c6, c7⟩ := ih
              (Node.children n ++ rest) (insert n vis)
              (deps ++ [(n, (Node.children n).dedup)])
              hsum
              (by
                simp only [List.map_append, List.map_cons, List.map_nil]
                rw [List.nodup_append]
                refine ⟨hnd, List.nodup_singleton n, fun a ha ha' => ?_⟩
                simp only [List.mem_singleton] at ha'
                exact hn (ha' ▸ (hsync a).mp ha))
              (by
                intro x
                simp only [List.map_append, List.map_cons, List.map_nil,
                  List.mem_append, List.mem_singleton, Finset.mem_insert]
                constructor
                · rintro (h | rfl)
                  · exact .inr ((hsync x).mp h)
                  · exact .inl rfl
                · rintro (rfl | h)
                  · exact .inr rfl
                  · exact .inl ((hsync x).mpr h))
              (by
                intro p hp
                rcases List.mem_append.mp hp with h | h
                · exact hval p h
                · simp at h
                  rw [h])
              (by
                intro v hv c hc
                rcases Finset.mem_insert.mp hv with rfl | hv
                · exact .inr (List.mem_append_left _ hc)
                · rcases hclos v hv c hc with h | h
                  · exact .inl (Finset.mem_insert_of_mem h)
                  · rcases List.mem_cons.mp h with rfl | h
                    · exact .inl (Finset.mem_insert_self c vis)
                    · exact .inr (List.mem_append_right _ h))
            refine ⟨d, ?_, c2, c3,
              fun x hx => c4 x (Finset.mem_insert_of_mem hx),
              fun k hk => ?_, c6, fun x hx => ?_⟩
            · rw [depGraphLoop, if_neg hn]
              exact hd
            · rcases List.mem_cons.mp hk with rfl | hk
              · exact c4 k (Finset.mem_insert_self k vis)
              · exact c5 k (List.mem_append_right _ hk)
            · rcases c7 x hx with h | ⟨k, hk, hr⟩
              · rcases Finset.mem_insert.mp h with rfl | h
                · exact .inr ⟨x, by simp, self_mem_reachL x⟩
                · exact .inl h
              · rcases List.mem_append.mp hk with h | h
                · exact .inr ⟨n, by simp, reachL_children n k h x hr⟩
                · exact .inr ⟨k, by simp [h], hr⟩

/-- C5: for every finite list of root nodes the dependency-graph builder
terminates, its keys are exactly the nodes reachable from the roots,
each appearing once, and each key's recorded dependency set is exactly
the set of its immediate structural children. -/
theorem dependency_graph_complete (roots : List Node) :
    ∃ d, depGraphLoop ((roots.map depW).sum) roots ∅ [] = some d ∧
      _dependency_graph roots = d ∧
      (d.map Prod.fst).Nodup ∧
      (∀ x, x ∈ d.map Prod.fst ↔ ∃ k ∈ roots, x ∈ reachL k) ∧
      (∀ p ∈ d, p.2 = (Node.children p.1).dedup) := by
  have hphi : depPhi ∅ roots ≤ (roots.map depW).sum := by
    unfold depPhi depV
    simp
  obtain ⟨d, hd, c2, c3, _, c5, c6, c7⟩ := depGraphLoop_spec
    ((roots.map depW).sum) roots ∅ []
    hphi (by simp) (by simp) (by simp) (by simp)
  refine ⟨d, hd, by simp [_dependency_graph, hd], c2, fun x => ⟨?_, ?_⟩, c3⟩
  · intro hx
    rcases c7 x hx with h | h
    · simp at h
    · exact h
  · rintro ⟨k, hk, hr⟩
    exact closed_reach (fun y => y ∈ d.map Prod.fst) c6 k (c5 k hk) x hr

/-! ## The children-first traversal -/

theorem dfsW_pos : ∀ n : Node, 2 ≤ dfsW n
  | .ConstFalse => le_refl 2
  | .Input _ => le_refl 2
  | .LatchIn _ => le_refl 2
  | .Inverter a => by unfold dfsW; omega
  | .AndGate a b => by unfold dfsW; omega

theorem dfsW_children : ∀ n : Node, ((Node.children n).map dfsW).sum + 2 = dfsW n
  | .ConstFalse => rfl
  | .Input _ => rfl
  | .LatchIn _ => rfl
  | .Inverter a => by simp [Node.children, dfsW]; omega
  | .AndGate a b => by simp [Node.children, dfsW]; omega

theorem sublist_sum_le : ∀ {l₁ l₂ : List Nat}, l₁.Sublist l₂ → l₁.sum ≤ l₂.sum := by
  intro l₁ l₂ h
  induction h with
  | slnil => simp
  | cons a _ ih => simp; omega
  | cons₂ a _ ih => simp; omega

theorem dfsW_child_lt (n c : Node) (hc : c ∈ Node.children n) : dfsW c < dfsW n := by
  have h := dfsW_children n
  have h2 : dfsW c ≤ ((Node.children n).map dfsW).sum :=
    List.single_le_sum (fun x _ => Nat.zero_le x) (dfsW c)
      (List.mem_map_of_mem dfsW hc)
  omega

theorem dfsLoop_zero (s : List Node) (em : Finset Node) :
    dfsLoop 0 s em = ([], em, s, 0) := rfl

theorem dfsLoop_nil (f : Nat) (em : Finset Node) :
    dfsLoop (f + 1) [] em = ([], em, [], f + 1) := rfl

theorem dfsLoop_cons (f : Nat) (n : Node) (rest : List Node) (em : Finset Node) :
    dfsLoop (f + 1) (n :: rest) em =
      if n ∈ em then dfsLoop f rest em
      else if ((Node.children n).dedup.filter (fun c => decide (c ∉ em))).isEmpty then
        (n :: (dfsLoop f rest (insert n em)).1, (dfsLoop f rest (insert n em)).2)
      else dfsLoop f ((Node.children n).dedup.filter (fun c => decide (c ∉ em))
        ++ n :: rest) em := rfl

theorem dfsLoop_emit : ∀ (f : Nat) (s : List Node) (em : Finset Node),
    (dfsLoop f s em).1.Nodup ∧ (∀ x ∈ (dfsLoop f s em).1, x ∉ em) ∧
    (∀ x, x ∈ (dfsLoop f s em).2.1 ↔ x ∈ em ∨ x ∈ (dfsLoop f s em).1) := by
  intro f
  induction f with
  | zero => intro s em; rw [dfsLoop_zero]; simp
  | succ f ih =>
      intro s em
      cases s with
      | nil => rw [dfsLoop_nil]; simp
      | cons n rest =>
          rw [dfsLoop_cons]
          by_cases hn : n ∈ em
          · rw [if_pos hn]
            exact ih rest em
          · rw [if_neg hn]
            by_cases hp :
              ((Node.children n).dedup.filter (fun c => decide (c ∉ em))).isEmpty
                = true
            · rw [if_pos hp]
              obtain ⟨ih1, ih2, ih3⟩ := ih rest (insert n em)
              refine ⟨?_, ?_, ?_⟩
              · refine List.nodup_cons.mpr ⟨fun hmem => ?_, ih1⟩
                exact ih2 n hmem (Finset.mem_insert_self n em)
              · intro x hx
                rcases List.mem_cons.mp hx with rfl | hx
                · exact hn
                · exact fun hx' => ih2 x hx (Finset.mem_insert_of_mem hx')
              · intro x
                rw [show ((n :: (dfsLoop f rest (insert n em)).1,
                      (dfsLoop f rest (insert n em)).2) :
                        List Node × Finset Node × List Node × Nat).2.1
                    = (dfsLoop f rest (insert n em)).2.1 from rfl,
                  ih3 x]
                simp only [Finset.mem_insert, List.mem_cons]
                tauto
            · rw [if_neg hp]
              exact ih _ em

theorem dfsLoop_em_sub (f : Nat) (s : List Node) (em : Finset Node) :
    em ⊆ (dfsLoop f s em).2.1 := fun x hx =>
  ((dfsLoop_emit f s em).2.2 x).mpr (.inl hx)

theorem dfsLoop_sound : ∀ (f : Nat) (s : List Node) (em : Finset Node),
    ∀ x ∈ (dfsLoop f s em).1, ∃ k ∈ s, x ∈ reachL k := by
  intro f
  induction f with
  | zero => intro s em x hx; rw [dfsLoop_zero] at hx; simp at hx
  | succ f ih =>
      intro s em x hx
      cases s with
      | nil => rw [dfsLoop_nil] at hx; simp at hx
      | cons n rest =>
          rw [dfsLoop_cons] at hx
          by_cases hn : n ∈ em
          · rw [if_pos hn] at hx
            obtain ⟨k, hk, hr⟩ := ih rest em x hx
            exact ⟨k, by simp [hk], hr⟩
          · rw [if_neg hn] at hx
            by_cases hp :
              ((Node.children n).dedup.filter (fun c => decide (c ∉ em))).isEmpty
                = true
            · rw [if_pos hp] at hx
              rcases List.mem_cons.mp hx with rfl | hx
              · exact ⟨x, by simp, self_mem_reachL x⟩
              · obtain ⟨k, hk, hr⟩ := ih rest (insert n em) x hx
                exact ⟨k, by simp [hk], hr⟩
            · rw [if_neg hp] at hx
              obtain ⟨k, hk, hr⟩ := ih _ em x hx
              rcases List.mem_append.mp hk with hk | hk
              · have hk' : k ∈ Node.children n :=
                  (List.dedup_sublist _).mem (List.mem_of_mem_filter hk)
                exact ⟨n, by simp, reachL_children n k hk' x hr⟩
              · exact ⟨k, hk, hr⟩

/-- Every yielded node's children are already emitted at the moment it
is yielded. -/
def childrenBefore (em : Finset Node) : List Node → Prop
  | [] => True
  | n :: rest => (∀ c ∈ Node.children n, c ∈ em) ∧ childrenBefore (insert n em) rest

theorem dfsLoop_cb : ∀ (f : Nat) (s : List Node) (em : Finset Node),
    childrenBefore em (dfsLoop f s em).1 := by
  intro f
  induction f with
  | zero => intro s em; rw [dfsLoop_zero]; trivial
  | succ f ih =>
      intro s em
      cases s with
      | nil => rw [dfsLoop_nil]; trivial
      | cons n rest =>
          rw [dfsLoop_cons]
          by_cases hn : n ∈ em
          · rw [if_pos hn]
            exact ih rest em
          · rw [if_neg hn]
            by_cases hp :
              ((Node.children n).dedup.filter (fun c => decide (c ∉ em))).isEmpty
                = true
            · rw [if_pos hp]
              refine ⟨fun c hc => ?_, ih rest (insert n em)⟩
              by_contra hcem
              have hpc : c ∈ (Node.children n).dedup.filter
                  (fun c => decide (c ∉ em)) :=
                List.mem_filter.mpr ⟨List.mem_dedup.mpr hc, by simpa using hcem⟩
              rw [List.isEmpty_iff] at hp
              rw [hp] at hpc
              simp at hpc
            · rw [if_neg hp]
              exact ih _ em

theorem childrenBefore_split : ∀ (l₁ : List Node) (em : Finset Node)
    (l : List Node) (n : Node) (l₂ : List Node),
    childrenBefore em l → l = l₁ ++ n :: l₂ →
    ∀ c ∈ Node.children n, c ∈ em ∨ c ∈ l₁ := by
  intro l₁
  induction l₁ with
  | nil =>
      intro em l n l₂ hcb hl c hc
      subst hl
      exact .inl (hcb.1 c hc)
  | cons a l₁ ih =>
      intro em l n l₂ hcb hl c hc
      subst hl
      rcases hcb with ⟨_, hcb⟩
      rcases ih (insert a em) _ n l₂ hcb rfl c hc with h | h
      · rcases Finset.mem_insert.mp h with rfl | h
        · exact .inr (by simp)
        · exact .inl h
      · exact .inr (by simp [h])

theorem quad_ext {α β γ δ : Type} (x : α × β × γ × δ) (a : α) (b : β) (c : γ) (d : δ) :
    x = (a, b, c, d) ↔ x.1 = a ∧ x.2.1 = b ∧ x.2.2.1 = c ∧ x.2.2.2 = d := by
  constructor
  · rintro rfl
    exact ⟨rfl, rfl, rfl, rfl⟩
  · rintro ⟨h1, h2, h3, h4⟩
    rw [show x = (x.1, x.2.1, x.2.2.1, x.2.2.2) from rfl, h1, h2, h3, h4]

theorem dfsLoop_mono : ∀ (f : Nat) (s : List Node) (em : Finset Node)
    (o : List Node) (em' : Finset Node) (fl : Nat),
    dfsLoop f s em = (o, em', [], fl) →
    ∀ m, dfsLoop (f + m) s em = (o, em', [], fl + m) := by
  intro f
  induction f with
  | zero =>
      intro s em o em' fl h m
      rw [dfsLoop_zero, quad_ext] at h
      obtain ⟨ho, hem, hs, hfl⟩ := h
      subst ho; subst hem; subst hfl
      simp only at hs
      subst hs
      rw [Nat.zero_add]
      cases m with
      | zero => rw [dfsLoop_zero]
      | succ m => rw [dfsLoop_nil]
  | succ f ih =>
      intro s em o em' fl h m
      cases s with
      | nil =>
          rw [dfsLoop_nil, quad_ext] at h
          obtain ⟨ho, hem, -, hfl⟩ := h
          subst ho; subst hem; subst hfl
          rw [show f + 1 + m = (f + m) + 1 from by omega, dfsLoop_nil,
            show f + m + 1 = f + 1 + m from by omega]
      | cons n rest =>
          rw [dfsLoop_cons] at h
          rw [show f + 1 + m = (f + m) + 1 from by omega, dfsLoop_cons]
          by_cases hn : n ∈ em
          · rw [if_pos hn] at h ⊢
            exact ih rest em o em' fl h m
          · rw [if_neg hn] at h ⊢
            by_cases hp :
              ((Node.children n).dedup.filter (fun c => decide (c ∉ em))).isEmpty
                = true
            · rw [if_pos hp] at h ⊢
              rw [quad_ext] at h
              obtain ⟨ho, hem, hst, hfl⟩ := h
              have hr : dfsLoop f rest (insert n em)
                  = ((dfsLoop f rest (insert n em)).1, em', [], fl) :=
                (quad_ext _ _ _ _ _).mpr ⟨rfl, hem, hst, hfl⟩
              rw [ih rest (insert n em) _ em' fl hr m, ← ho]
            · rw [if_neg hp] at h ⊢
              exact ih _ em o em' fl h m

theorem dfsLoop_append : ∀ (f : Nat) (s₁ : List Node) (em : Finset Node)
    (o₁ : List Node) (em₁ : Finset Node) (fl : Nat) (s₂ : List Node),
    dfsLoop f s₁ em = (o₁, em₁, [], fl) →
    dfsLoop f (s₁ ++ s₂) em
      = (o₁ ++ (dfsLoop fl s₂ em₁).1, (dfsLoop fl s₂ em₁).2) := by
  intro f
  induction f with
  | zero =>
      intro s₁ em o₁ em₁ fl s₂ h
      rw [dfsLoop_zero, quad_ext] at h
      obtain ⟨ho, hem, hs, hfl⟩ := h
      subst ho; subst hem; subst hfl
      simp only at hs
      subst hs
      rfl
  | succ f ih =>
      intro s₁ em o₁ em₁ fl s₂ h
      cases s₁ with
      | nil =>
          rw [dfsLoop_nil, quad_ext] at h
          obtain ⟨ho, hem, -, hfl⟩ := h
          subst ho; subst hem; subst hfl
          rfl
      | cons n rest =>
          rw [dfsLoop_cons] at h
          rw [show (n :: rest) ++ s₂ = n :: (rest ++ s₂) from rfl, dfsLoop_cons]
          by_cases hn : n ∈ em
          · rw [if_pos hn] at h ⊢
            exact ih rest em o₁ em₁ fl s₂ h
          · rw [if_neg hn] at h ⊢
            by_cases hp :
              ((Node.children n).dedup.filter (fun c => decide (c ∉ em))).isEmpty
                = true
            · rw [if_pos hp] at h ⊢
              rw [quad_ext] at h
              obtain ⟨ho, hem, hst, hfl⟩ := h
              have hr : dfsLoop f rest (insert n em)
                  = ((dfsLoop f rest (insert n em)).1, em₁, [], fl) :=
                (quad_ext _ _ _ _ _).mpr ⟨rfl, hem, hst, hfl⟩
              rw [ih rest (insert n em) _ em₁ fl s₂ hr, ← ho]
              rfl
            · rw [if_neg hp] at h ⊢
              have := ih _ em o₁ em₁ fl s₂ h
              simp only [List.append_assoc, List.cons_append] at this
              exact this

/-- Starting `dfsLoop` on a single node with its own fuel weight always
drains the stack, emits the node, and keeps at least one unit of fuel. -/
def SingleCompletes (n : Node) : Prop :=
  ∀ em : Finset Node, ∃ o em' fl, dfsLoop (dfsW n) [n] em = (o, em', [], fl) ∧
    1 ≤ fl ∧ n ∈ em' ∧ em ⊆ em'

theorem dfsLoop_chain : ∀ (cs : List Node), (∀ c ∈ cs, SingleCompletes c) →
    ∀ (em : Finset Node) (f : Nat), (cs.map dfsW).sum ≤ f →
    ∃ o em' fl, dfsLoop f cs em = (o, em', [], fl) ∧
      f + cs.length ≤ fl + (cs.map dfsW).sum ∧
      (∀ c ∈ cs, c ∈ em') ∧ em ⊆ em' := by
  intro cs
  induction cs with
  | nil =>
      intro _ em f _
      cases f with
      | zero =>
          exact ⟨[], em, 0, by rw [dfsLoop_zero], by simp, by simp, le_refl _⟩
      | succ f =>
          exact ⟨[], em, f + 1, by rw [dfsLoop_nil], by simp, by simp, le_refl _⟩
  | cons c cs ih =>
      intro hall em f hf
      obtain ⟨o₀, em₀, fl₀, h₀, hfl₀, hc₀, hsub₀⟩ := hall c (by simp) em
      have hWc : dfsW c ≤ f := by
        have := (List.map dfsW (c :: cs)).sum
        simp only [List.map_cons, List.sum_cons] at hf
        omega
      have hmono := dfsLoop_mono (dfsW c) [c] em o₀ em₀ fl₀ h₀ (f - dfsW c)
      rw [show dfsW c + (f - dfsW c) = f from by omega] at hmono
      have happ := dfsLoop_append f [c] em o₀ em₀ (fl₀ + (f - dfsW c)) cs hmono
      obtain ⟨o₂, em₂, fl₂, h₂, hfl₂, hcs₂, hsub₂⟩ := ih
        (fun x hx => hall x (by simp [hx])) em₀ (fl₀ + (f - dfsW c))
        (by
          simp only [List.map_cons, List.sum_cons] at hf
          omega)
      refine ⟨o₀ ++ o₂, em₂, fl₂, ?_, ?_, ?_, fun x hx => hsub₂ (hsub₀ hx)⟩
      · rw [show (c :: cs) = [c] ++ cs from rfl, happ, h₂]
      · simp only [List.map_cons, List.sum_cons, List.length_cons]
        simp only [List.map_cons, List.sum_cons] at hf
        omega
      · intro x hx
        rcases List.mem_cons.mp hx with rfl | hx
        · exact hsub₂ hc₀
        · exact hcs₂ x hx

theorem singleCompletes_rec : ∀ (B : Nat) (n : Node), dfsW n ≤ B → SingleCompletes n := by
  intro B
  induction B with
  | zero =>
      intro n hn
      have := dfsW_pos n
      omega
  | succ B ih =>
      intro n hn em
      obtain ⟨w, hw⟩ : ∃ w, dfsW n = w + 1 :=
        ⟨dfsW n - 1, by have := dfsW_pos n; omega⟩
      have hw1 : 1 ≤ w := by have := dfsW_pos n; omega
      rw [hw, dfsLoop_cons]
      by_cases hnem : n ∈ em
      · rw [if_pos hnem]
        obtain ⟨v, hv⟩ : ∃ v, w = v + 1 := ⟨w - 1, by omega⟩
        rw [hv, dfsLoop_nil]
        exact ⟨[], em, v + 1, rfl, by omega, hnem, le_refl _⟩
      · rw [if_neg hnem]
        by_cases hp :
          ((Node.children n).dedup.filter (fun c => decide (c ∉ em))).isEmpty = true
        · rw [if_pos hp]
          obtain ⟨v, hv⟩ : ∃ v, w = v + 1 := ⟨w - 1, by omega⟩
          rw [hv, dfsLoop_nil]
          exact ⟨[n], insert n em, v + 1, rfl, by omega,
            Finset.mem_insert_self n em, Finset.subset_insert n em⟩
        · rw [if_neg hp]
          set pending := (Node.children n).dedup.filter (fun c => decide (c ∉ em))
            with hpend
          have hsingle : ∀ c ∈ pending, SingleCompletes c := by
            intro c hc
            have hc' : c ∈ Node.children n :=
              (List.dedup_sublist _).mem (List.mem_of_mem_filter hc)
            have := dfsW_child_lt n c hc'
            exact ih c (by omega)
          have hsum : (pending.map dfsW).sum ≤ ((Node.children n).map dfsW).sum := by
            apply sublist_sum_le
            apply List.Sublist.map
            exact (List.filter_sublist _).trans (List.dedup_sublist _)
          have hchild := dfsW_children n
          have hsumw : (pending.map dfsW).sum ≤ w := by omega
          obtain ⟨o₁, em₁, fl₁, h₁, hfl₁, hpem, hsub₁⟩ :=
            dfsLoop_chain pending hsingle em w hsumw
          have hlen : 1 ≤ pending.length := by
            cases hpl : pending with
            | nil => rw [hpl] at hp; simp at hp
            | cons _ _ => simp
          have hfl1b : 2 ≤ fl₁ := by omega
          have happ := dfsLoop_append w pending em o₁ em₁ fl₁ [n] h₁
          obtain ⟨g, hg⟩ : ∃ g, fl₁ = g + 1 := ⟨fl₁ - 1, by omega⟩
          have hg1 : 1 ≤ g := by omega
          by_cases hnem₁ : n ∈ em₁
          · have hph : dfsLoop fl₁ [n] em₁ = ([], em₁, [], g) := by
              rw [hg, dfsLoop_cons, if_pos hnem₁]
              obtain ⟨g', hg'⟩ : ∃ g', g = g' + 1 := ⟨g - 1, by omega⟩
              rw [hg', dfsLoop_nil, ← hg']
            refine ⟨o₁ ++ ([] : List Node), em₁, g, ?_, by omega, hnem₁, hsub₁⟩
            rw [happ, hph]
          · have hpend₁ : (Node.children n).dedup.filter
                (fun c => decide (c ∉ em₁)) = [] := by
              rw [List.filter_eq_nil_iff]
              intro c hc
              simp only [decide_eq_true_eq, Decidable.not_not]
              by_cases hcem : c ∈ em
              · exact hsub₁ hcem
              · exact hpem c (List.mem_filter.mpr ⟨hc, by simpa using hcem⟩)
            have hph : dfsLoop fl₁ [n] em₁ = ([n], insert n em₁, [], g) := by
              rw [hg, dfsLoop_cons, if_neg hnem₁, if_pos (by rw [hpend₁]; rfl)]
              obtain ⟨g', hg'⟩ : ∃ g', g = g' + 1 := ⟨g - 1, by omega⟩
              rw [hg', dfsLoop_nil, ← hg']
            refine ⟨o₁ ++ [n], insert n em₁, g, ?_, by omega,
              Finset.mem_insert_self _ _,
              fun x hx => Finset.mem_insert_of_mem (hsub₁ hx)⟩
            rw [happ, hph]

theorem singleCompletes_all (n : Node) : SingleCompletes n :=
  singleCompletes_rec (dfsW n) n (le_refl _)

theorem dfsLoop_drain (s : List Node) (em : Finset Node) (f : Nat)
    (hf : (s.map dfsW).sum ≤ f) :
    ∃ o em' fl, dfsLoop f s em = (o, em', [], fl) := by
  obtain ⟨o, em', fl, h, -, -, -⟩ :=
    dfsLoop_chain s (fun c _ => singleCompletes_all c) em f hf
  exact ⟨o, em', fl, h⟩

theorem dfsLoop_reach : ∀ (f : Nat) (s : List Node) (em : Finset Node),
    (∀ v ∈ em, ∀ c ∈ Node.children v, c ∈ em) →
    (∀ v ∈ (dfsLoop f s em).2.1, ∀ c ∈ Node.children v, c ∈ (dfsLoop f s em).2.1) ∧
    (∀ k ∈ s, ∀ x ∈ reachL k, x ∈ (dfsLoop f s em).2.1 ∨
      ∃ k' ∈ (dfsLoop f s em).2.2.1, x ∈ reachL k') := by
  intro f
  induction f with
  | zero =>
      intro s em hclos
      rw [dfsLoop_zero]
      exact ⟨hclos, fun k hk x hx => .inr ⟨k, hk, hx⟩⟩
  | succ f ih =>
      intro s em hclos
      cases s with
      | nil =>
          rw [dfsLoop_nil]
          exact ⟨hclos, fun k hk => by simp at hk⟩
      | cons n rest =>
          rw [dfsLoop_cons]
          by_cases hn : n ∈ em
          · rw [if_pos hn]
            obtain ⟨c1, c2⟩ := ih rest em hclos
            refine ⟨c1, fun k hk x hx => ?_⟩
            rcases List.mem_cons.mp hk with rfl | hk
            · exact .inl (dfsLoop_em_sub f rest em
                (closed_reach (fun y => y ∈ em) hclos k hn x hx))
            · exact c2 k hk x hx
          · rw [if_neg hn]
            by_cases hp :
              ((Node.children n).dedup.filter (fun c => decide (c ∉ em))).isEmpty
                = true
            · rw [if_pos hp]
              have hchem : ∀ c ∈ Node.children n, c ∈ em := by
                intro c hc
                by_contra hcem
                have hpc : c ∈ (Node.children n).dedup.filter
                    (fun c => decide (c ∉ em)) :=
                  List.mem_filter.mpr ⟨List.mem_dedup.mpr hc, by simpa using hcem⟩
                rw [List.isEmpty_iff] at hp
                rw [hp] at hpc
                simp at hpc
              have hclos₂ : ∀ v ∈ insert n em, ∀ c ∈ Node.children v,
                  c ∈ insert n em := by
                intro v hv c hc
                rcases Finset.mem_insert.mp hv with rfl | hv
                · exact Finset.mem_insert_of_mem (hchem c hc)
                · exact Finset.mem_insert_of_mem (hclos v hv c hc)
              obtain ⟨c1, c2⟩ := ih rest (insert n em) hclos₂
              refine ⟨c1, fun k hk x hx => ?_⟩
              rcases List.mem_cons.mp hk with rfl | hk
              · exact .inl (dfsLoop_em_sub f rest (insert k em)
                  (closed_reach (fun y => y ∈ insert k em) hclos₂ k
                    (Finset.mem_insert_self k em) x hx))
              · exact c2 k hk x hx
            · rw [if_neg hp]
              obtain ⟨c1, c2⟩ := ih
                ((Node.children n).dedup.filter (fun c => decide (c ∉ em))
                  ++ n :: rest) em hclos
              refine ⟨c1, fun k hk x hx => ?_⟩
              rcases List.mem_cons.mp hk with rfl | hk
              · exact c2 k (List.mem_append_right _ (by simp)) x hx
              · exact c2 k (List.mem_append_right _ (by simp [hk])) x hx

/-- C4: `dfs` yields each node reachable from the circuit's cones and
latch cones exactly once (nodes shared between several paths are emitted
once, keyed by their content identity), and every child of a yielded
node appears strictly earlier in the yielded sequence. -/
theorem dfs_children_first_unique (A : AIG) :
    (dfs A).Nodup ∧
    (∀ x, x ∈ dfs A ↔ ∃ k ∈ dfsSeeds A, x ∈ reachL k) ∧
    (∀ l₁ n l₂, dfs A = l₁ ++ n :: l₂ → ∀ c ∈ Node.children n, c ∈ l₁) := by
  obtain ⟨o, em', fl, hrun⟩ := dfsLoop_drain (dfsSeeds A) ∅ (dfsFuel A)
    (by unfold dfsFuel; omega)
  have hdfs : dfs A = o := by unfold dfs; rw [hrun]
  obtain ⟨hnd, hdisj, hiff⟩ := dfsLoop_emit (dfsFuel A) (dfsSeeds A) ∅
  rw [hrun] at hnd hdisj hiff
  obtain ⟨hcl, hrch⟩ := dfsLoop_reach (dfsFuel A) (dfsSeeds A) ∅ (by simp)
  rw [hrun] at hcl hrch
  have hcb := dfsLoop_cb (dfsFuel A) (dfsSeeds A) ∅
  rw [hrun] at hcb
  have hsound := dfsLoop_sound (dfsFuel A) (dfsSeeds A) ∅
  rw [hrun] at hsound
  rw [hdfs]
  refine ⟨hnd, fun x => ⟨fun hx => hsound x hx, fun hr => ?_⟩,
    fun l₁ n l₂ hsplit c hc => ?_⟩
  · obtain ⟨k, hk, hkr⟩ := hr
    rcases hrch k hk x hkr with hxem | ⟨k', hk', -⟩
    · rcases (hiff x).mp hxem with h | h
      · simp at h
      · exact h
    · simp at hk'
  · rcases childrenBefore_split l₁ ∅ o n l₂ hcb hsplit c hc with h | h
    · simp at h
    · exact h

/-! ## Kahn's algorithm -/

theorem alookup_mem {α β : Type} [DecidableEq α] :
    ∀ (l : List (α × β)) (k : α) (b : β), alookup l k = some b → (k, b) ∈ l
  | [], _, _, h => by simp [alookup] at h
  | p :: rest, k, b, h => by
      rw [alookup] at h
      by_cases hpk : p.1 = k
      · rw [if_pos hpk] at h
        have hb : p.2 = b := by injection h
        have hp : p = (k, b) := by rw [← hpk, ← hb]
        rw [← hp]
        exact List.mem_cons_self p rest
      · rw [if_neg hpk] at h
        exact List.mem_cons_of_mem _ (alookup_mem rest k b h)

theorem alookup_nodup {α β : Type} [DecidableEq α] :
    ∀ (l : List (α × β)), (l.map Prod.fst).Nodup →
      ∀ (k : α) (b : β), (k, b) ∈ l → alookup l k = some b
  | [], _, k, b, h => by simp at h
  | p :: rest, hnd, k, b, h => by
      rw [alookup]
      rcases List.mem_cons.mp h with rfl | h
      · rw [if_pos rfl]
      · have hk : k ∈ rest.map Prod.fst :=
          List.mem_map.mpr ⟨(k, b), h, rfl⟩
        have hpk : ¬ p.1 = k := by
          intro hpk
          exact (List.nodup_cons.mp hnd).1 (hpk ▸ hk)
        rw [if_neg hpk]
        exact alookup_nodup rest (List.nodup_cons.mp hnd).2 k b h

theorem kdeps_nodup {α : Type} [DecidableEq α] (data : List (α × List α))
    (hdeps : ∀ p ∈ data, p.2.Nodup) (n : α) : (kdeps data n).Nodup := by
  unfold kdeps
  cases h : alookup data n with
  | none => simp
  | some ds => exact hdeps (n, ds) (alookup_mem data n ds h)

theorem kdeps_mem_edge {α : Type} [DecidableEq α] (data : List (α × List α))
    (n d : α) (h : d ∈ kdeps data n) : depEdge data d n := by
  unfold kdeps at h
  cases hl : alookup data n with
  | none => rw [hl] at h; simp at h
  | some ds =>
      rw [hl] at h
      exact ⟨ds, alookup_mem data n ds hl, by simpa using h⟩

theorem depEdge_iff {α : Type} [DecidableEq α] (data : List (α × List α))
    (hkeys : (data.map Prod.fst).Nodup) (n d : α) :
    depEdge data d n ↔ d ∈ kdeps data n := by
  refine ⟨fun ⟨ds, hmem, hd⟩ => ?_, kdeps_mem_edge data n d⟩
  unfold kdeps
  rw [alookup_nodup data hkeys n ds hmem]
  simpa using hd

theorem mem_transposed {α : Type} [DecidableEq α] (data : List (α × List α))
    (d m : α) : m ∈ transposed data d ↔ depEdge data d m := by
  unfold transposed depEdge
  constructor
  · intro h
    obtain ⟨p, hp, rfl⟩ := List.mem_map.mp h
    obtain ⟨hpd, hp2⟩ := List.mem_filter.mp hp
    exact ⟨p.2, by simpa using hpd, by simpa using hp2⟩
  · rintro ⟨ds, hmem, hd⟩
    exact List.mem_map.mpr ⟨(m, ds), List.mem_filter.mpr ⟨hmem, by simpa using hd⟩, rfl⟩

theorem transposed_nodup {α : Type} [DecidableEq α] (data : List (α × List α))
    (hkeys : (data.map Prod.fst).Nodup) (d : α) : (transposed data d).Nodup := by
  unfold transposed
  exact List.Nodup.sublist (List.Sublist.map Prod.fst (List.filter_sublist data)) hkeys

theorem transposed_sub_keys {α : Type} [DecidableEq α] (data : List (α × List α))
    (d m : α) (h : m ∈ transposed data d) : m ∈ data.map Prod.fst := by
  unfold transposed at h
  obtain ⟨p, hp, rfl⟩ := List.mem_map.mp h
  exact List.mem_map.mpr ⟨p, (List.mem_filter.mp hp).1, rfl⟩

theorem graphNodes_nodup {α : Type} [DecidableEq α] (data : List (α × List α)) :
    (graphNodes data).Nodup := List.nodup_dedup _

theorem keys_sub_nodes {α : Type} [DecidableEq α] (data : List (α × List α))
    (m : α) (h : m ∈ data.map Prod.fst) : m ∈ graphNodes data := by
  unfold graphNodes
  rw [List.mem_dedup]
  exact List.mem_append_left _ h

theorem kdeps_sub_nodes {α : Type} [DecidableEq α] (data : List (α × List α))
    (n d : α) (h : d ∈ kdeps data n) : d ∈ graphNodes data := by
  obtain ⟨ds, hmem, hd⟩ := kdeps_mem_edge data n d h
  unfold graphNodes
  rw [List.mem_dedup]
  exact List.mem_append_right _ (List.mem_flatMap.mpr ⟨(n, ds), hmem, hd⟩)

theorem nodup_subset_length {α : Type} [DecidableEq α] {l nodes : List α}
    (hl : l.Nodup) (hn : nodes.Nodup) (hsub : ∀ x ∈ l, x ∈ nodes) :
    l.length ≤ nodes.length := by
  have h1 : l.toFinset.card = l.length := List.toFinset_card_of_nodup hl
  have h2 : nodes.toFinset.card = nodes.length := List.toFinset_card_of_nodup hn
  have h3 : l.toFinset ⊆ nodes.toFinset := by
    intro x hx
    rw [List.mem_toFinset] at hx ⊢
    exact hsub x hx
  have := Finset.card_le_card h3
  omega

theorem exists_source_rec {α : Type} [DecidableEq α] (E : α → α → Prop)
    (hacyc : ∀ x, ¬ Relation.TransGen E x x) :
    ∀ (B : Nat) (S : Finset α), S.card ≤ B → S.Nonempty →
      ∃ m ∈ S, ∀ d, E d m → d ∉ S := by
  classical
  intro B
  induction B with
  | zero =>
      intro S hc hne
      have := Finset.card_pos.mpr hne
      omega
  | succ B ih =>
      intro S hc hne
      obtain ⟨x, hx⟩ := hne
      by_cases hx0 : ∀ d, E d x → d ∉ S
      · exact ⟨x, hx, hx0⟩
      · push_neg at hx0
        obtain ⟨d₀, hd₀E, hd₀S⟩ := hx0
        have hd₀' : d₀ ∈ S.filter (fun y => Relation.TransGen E y x) :=
          Finset.mem_filter.mpr ⟨hd₀S, Relation.TransGen.single hd₀E⟩
        have hxS' : x ∉ S.filter (fun y => Relation.TransGen E y x) :=
          fun hmem => hacyc x (Finset.mem_filter.mp hmem).2
        have hcard : (S.filter (fun y => Relation.TransGen E y x)).card < S.card :=
          Finset.card_lt_card ⟨Finset.filter_subset _ _, fun hsub => hxS' (hsub hx)⟩
        obtain ⟨m, hmS', hm⟩ := ih (S.filter (fun y => Relation.TransGen E y x))
          (by omega) ⟨d₀, hd₀'⟩
        refine ⟨m, (Finset.mem_filter.mp hmS').1, fun d hdE hdS => ?_⟩
        exact hm d hdE (Finset.mem_filter.mpr
          ⟨hdS, Relation.TransGen.head hdE (Finset.mem_filter.mp hmS').2⟩)

/-- Every dependency of every element of the second list lies in the
accumulated prefix before it. -/
def sortedDeps {α : Type} (E : α → α → Prop) : List α → List α → Prop
  | _, [] => True
  | prev, n :: rest => (∀ d, E d n → d ∈ prev) ∧ sortedDeps E (prev ++ [n]) rest

theorem sortedDeps_split {α : Type} (E : α → α → Prop) :
    ∀ (l₁ : List α) (prev l : List α) (n : α) (l₂ : List α),
    sortedDeps E prev l → l = l₁ ++ n :: l₂ →
    ∀ d, E d n → d ∈ prev ∨ d ∈ l₁ := by
  intro l₁
  induction l₁ with
  | nil =>
      intro prev l n l₂ hs hl d hd
      subst hl
      exact .inl (hs.1 d hd)
  | cons a l₁ ih =>
      intro prev l n l₂ hs hl d hd
      subst hl
      rcases ih (prev ++ [a]) _ n l₂ hs.2 rfl d hd with h | h
      · rcases List.mem_append.mp h with h | h
        · exact .inl h
        · exact .inr (by
            rw [List.mem_singleton.mp h]
            exact List.mem_cons_self a l₁)
      · exact .inr (by simp [h])

theorem decDeps_nil {α : Type} [DecidableEq α] (deg : α → Int) (queue : List α) :
    decDeps ([] : List α) deg queue = (deg, queue) := rfl

theorem decDeps_cons {α : Type} [DecidableEq α] (c : α) (cs : List α)
    (deg : α → Int) (queue : List α) :
    decDeps (c :: cs) deg queue
      = decDeps cs (fun x => if x = c then deg c - 1 else deg x)
          (if deg c - 1 = 0 then queue ++ [c] else queue) := rfl

theorem decDeps_deg {α : Type} [DecidableEq α] :
    ∀ (cs : List α), cs.Nodup → ∀ (deg : α → Int) (queue : List α) (x : α),
      (decDeps cs deg queue).1 x = if x ∈ cs then deg x - 1 else deg x
  | [], _, deg, queue, x => by simp [decDeps_nil]
  | c :: cs, hnd, deg, queue, x => by
      rw [decDeps_cons]
      rw [decDeps_deg cs (List.nodup_cons.mp hnd).2 _ _ x]
      by_cases hxc : x = c
      · subst hxc
        have hxcs : x ∉ cs := (List.nodup_cons.mp hnd).1
        simp [hxcs]
      · by_cases hxcs : x ∈ cs <;> simp [hxc, hxcs]

theorem decDeps_queue {α : Type} [DecidableEq α] :
    ∀ (cs : List α), cs.Nodup → ∀ (deg : α → Int) (queue : List α),
      (decDeps cs deg queue).2
        = queue ++ cs.filter (fun c => decide (deg c = 1))
  | [], _, deg, queue => by simp [decDeps_nil]
  | c :: cs, hnd, deg, queue => by
      rw [decDeps_cons]
      rw [decDeps_queue cs (List.nodup_cons.mp hnd).2 _ _]
      have hfc : cs.filter (fun y => decide ((if y = c then deg c - 1 else deg y) = 1))
          = cs.filter (fun y => decide (deg y = 1)) := by
        apply List.filter_congr
        intro y hy
        have hyc : ¬ y = c := fun h => (List.nodup_cons.mp hnd).1 (h ▸ hy)
        simp [hyc]
      rw [hfc]
      by_cases hc : deg c - 1 = 0
      · have hc1 : deg c = 1 := by omega
        rw [if_pos hc]
        simp [List.filter_cons, hc1]
      · have hc1 : ¬ deg c = 1 := by omega
        rw [if_neg hc]
        simp [List.filter_cons, hc1]

theorem filter_out_count {α : Type} [DecidableEq α] (l out : List α) (n : α)
    (hl : l.Nodup) (hn : n ∈ l) (hno : n ∉ out) :
    (l.filter (fun d => decide (d ∉ out))).length
      = (l.filter (fun d => decide (d ∉ out ++ [n]))).length + 1 := by
  have hsplit : l.filter (fun d => decide (d ∉ out ++ [n]))
      = (l.filter (fun d => decide (d ∉ out))).filter (fun d => decide (d ≠ n)) := by
    rw [List.filter_filter]
    apply List.filter_congr
    intro d _
    by_cases h1 : d ∈ out <;> by_cases h2 : d = n <;> simp [h1, h2]
  have hmem : n ∈ l.filter (fun d => decide (d ∉ out)) :=
    List.mem_filter.mpr ⟨hn, by simpa using hno⟩
  have hnd : (l.filter (fun d => decide (d ∉ out))).Nodup := hl.filter _
  have herase : (l.filter (fun d => decide (d ∉ out))).filter (fun d => decide (d ≠ n))
      = (l.filter (fun d => decide (d ∉ out))).erase n := by
    rw [List.Nodup.erase_eq_filter hnd]
    apply List.filter_congr
    intro d _
    by_cases h : d = n <;> simp [h]
  have hlen := List.length_erase_of_mem hmem
  have hpos : 1 ≤ (l.filter (fun d => decide (d ∉ out))).length :=
    List.length_pos.mpr (List.ne_nil_of_mem hmem)
  rw [hsplit, herase]
  omega

/-- The loop invariant of Kahn's algorithm: emitted and queued nodes are
distinct graph nodes, the in-degree map counts unemitted dependencies,
every emitted or queued node has all dependencies emitted, and every
zero-degree node is emitted or queued. -/
def KInv {α : Type} [DecidableEq α] (data : List (α × List α))
    (deg : α → Int) (queue out : List α) : Prop :=
  (out ++ queue).Nodup ∧
  (∀ x ∈ out ++ queue, x ∈ graphNodes data) ∧
  (∀ m, deg m = (((kdeps data m).filter (fun d => decide (d ∉ out))).length : Int)) ∧
  (∀ m ∈ out ++ queue, ∀ d ∈ kdeps data m, d ∈ out) ∧
  (∀ m ∈ graphNodes data, deg m = 0 → m ∈ out ∨ m ∈ queue)

theorem kahn_zero {α : Type} [DecidableEq α] (dataT : α → List α)
    (deg : α → Int) (queue : List α) : kahnLoop dataT 0 deg queue = [] := rfl

theorem kahn_nil {α : Type} [DecidableEq α] (dataT : α → List α)
    (f : Nat) (deg : α → Int) : kahnLoop dataT (f + 1) deg [] = [] := rfl

theorem kahn_cons {α : Type} [DecidableEq α] (dataT : α → List α)
    (f : Nat) (deg : α → Int) (n : α) (rest : List α) :
    kahnLoop dataT (f + 1) deg (n :: rest)
      = n :: kahnLoop dataT f (decDeps (dataT n) deg rest).1
          (decDeps (dataT n) deg rest).2 := rfl

theorem kahn_terminal {α : Type} [DecidableEq α] (data : List (α × List α))
    (hacyc : ∀ x, ¬ Relation.TransGen (depEdge data) x x)
    (deg : α → Int) (out : List α)
    (hdeg : ∀ m, deg m
      = (((kdeps data m).filter (fun d => decide (d ∉ out))).length : Int))
    (hzero : ∀ m ∈ graphNodes data, deg m = 0 → m ∈ out) :
    ∀ x ∈ graphNodes data, x ∈ out := by
  classical
  by_contra hcon
  push_neg at hcon
  obtain ⟨x₀, hx₀n, hx₀o⟩ := hcon
  have hSne : ((graphNodes data).toFinset.filter (fun y => y ∉ out)).Nonempty :=
    ⟨x₀, Finset.mem_filter.mpr ⟨List.mem_toFinset.mpr hx₀n, hx₀o⟩⟩
  obtain ⟨m, hmS, hm⟩ := exists_source_rec (depEdge data) hacyc
    ((graphNodes data).toFinset.filter (fun y => y ∉ out)).card _ (le_refl _) hSne
  obtain ⟨hmn, hmo⟩ := Finset.mem_filter.mp hmS
  have hflt : (kdeps data m).filter (fun d => decide (d ∉ out)) = [] := by
    rw [List.filter_eq_nil_iff]
    intro d hd
    simp only [decide_eq_true_eq, Decidable.not_not]
    have hdn : d ∈ graphNodes data := kdeps_sub_nodes data m d hd
    have hdS := hm d (kdeps_mem_edge data m d hd)
    by_contra hdo
    exact hdS (Finset.mem_filter.mpr ⟨List.mem_toFinset.mpr hdn, hdo⟩)
  have hm0 : deg m = 0 := by
    rw [hdeg m, hflt]
    rfl
  exact hmo (hzero m (List.mem_toFinset.mp hmn) hm0)

theorem kahnLoop_spec {α : Type} [DecidableEq α] (data : List (α × List α))
    (hkeys : (data.map Prod.fst).Nodup)
    (hdeps : ∀ p ∈ data, p.2.Nodup)
    (hacyc : ∀ x, ¬ Relation.TransGen (depEdge data) x x) :
    ∀ (fuel : Nat) (deg : α → Int) (queue out : List α),
    KInv data deg queue out →
    (graphNodes data).length ≤ out.length + fuel →
    ((out ++ kahnLoop (transposed data) fuel deg queue).Nodup) ∧
    (∀ x ∈ graphNodes data, x ∈ out ++ kahnLoop (transposed data) fuel deg queue) ∧
    (∀ x ∈ kahnLoop (transposed data) fuel deg queue, x ∈ graphNodes data) ∧
    sortedDeps (depEdge data) out (kahnLoop (transposed data) fuel deg queue) := by
  intro fuel
  induction fuel with
  | zero =>
      intro deg queue out hinv hfuel
      obtain ⟨hnd, hsub, hdeg, hout, hzero⟩ := hinv
      rw [kahn_zero]
      have hq : queue = [] := by
        cases hq : queue with
        | nil => rfl
        | cons n rest =>
            exfalso
            have hlen := nodup_subset_length hnd (graphNodes_nodup data) hsub
            rw [hq] at hlen
            simp only [List.length_append, List.length_cons] at hlen
            omega
      subst hq
      refine ⟨by simpa using hnd, fun x hx => ?_, by simp, trivial⟩
      have hterm := kahn_terminal data hacyc deg out hdeg
        (fun m hm h0 => by
          rcases hzero m hm h0 with h | h
          · exact h
          · simp at h)
      simpa using hterm x hx
  | succ fuel ih =>
      intro deg queue out hinv hfuel
      obtain ⟨hnd, hsub, hdeg, hout, hzero⟩ := hinv
      cases queue with
      | nil =>
          rw [kahn_nil]
          refine ⟨by simpa using hnd, fun x hx => ?_, by simp, trivial⟩
          have hterm := kahn_terminal data hacyc deg out hdeg
            (fun m hm h0 => by
              rcases hzero m hm h0 with h | h
              · exact h
              · simp at h)
          simpa using hterm x hx
      | cons n rest =>
          rw [kahn_cons]
          have hcsnd : (transposed data n).Nodup := transposed_nodup data hkeys n
          have hdg := decDeps_deg (transposed data n) hcsnd deg rest
          have hqq := decDeps_queue (transposed data n) hcsnd deg rest
          have hmemn : n ∈ out ++ n :: rest := List.mem_append_right _ (by simp)
          have hnn : n ∈ graphNodes data := hsub n hmemn
          have hdepn : ∀ d ∈ kdeps data n, d ∈ out := hout n hmemn
          have hshape : out ++ n :: rest = (out ++ [n]) ++ rest := by simp
          have hnd' : ((out ++ [n]) ++ rest).Nodup := by rw [← hshape]; exact hnd
          have hnout : n ∉ out := by
            intro h
            exact (List.disjoint_of_nodup_append hnd) h (by simp)
          have hdeg0 : ∀ m ∈ out ++ n :: rest, deg m = 0 := by
            intro m hm
            rw [hdeg m]
            have hempty : (kdeps data m).filter (fun d => decide (d ∉ out)) = [] := by
              rw [List.filter_eq_nil_iff]
              intro d hd
              simpa using hout m hm d hd
            rw [hempty]
            rfl
          have hcnew : ∀ m, (decDeps (transposed data n) deg rest).1 m
              = (((kdeps data m).filter
                  (fun d => decide (d ∉ out ++ [n]))).length : Int) := by
            intro m
            rw [hdg m]
            by_cases hmcs : m ∈ transposed data n
            · rw [if_pos hmcs]
              have hE : depEdge data n m := (mem_transposed data n m).mp hmcs
              have hnm : n ∈ kdeps data m := (depEdge_iff data hkeys m n).mp hE
              have hknd : (kdeps data m).Nodup := kdeps_nodup data hdeps m
              have hcount := filter_out_count (kdeps data m) out n hknd hnm hnout
              rw [hdeg m]
              omega
            · rw [if_neg hmcs]
              have hnE : ¬ depEdge data n m :=
                fun h => hmcs ((mem_transposed data n m).mpr h)
              have hnm : n ∉ kdeps data m := fun h => hnE (kdeps_mem_edge data m n h)
              rw [hdeg m]
              have hfeq : (kdeps data m).filter (fun d => decide (d ∉ out))
                  = (kdeps data m).filter (fun d => decide (d ∉ out ++ [n])) := by
                apply List.filter_congr
                intro d hd
                have hdn : ¬ d = n := fun h => hnm (h ▸ hd)
                simp [hdn]
              rw [hfeq]
          have hinv' : KInv data (decDeps (transposed data n) deg rest).1
              (decDeps (transposed data n) deg rest).2 (out ++ [n]) := by
            refine ⟨?_, ?_, hcnew, ?_, ?_⟩
            · rw [hqq]
              have heq : (out ++ [n]) ++ (rest ++ (transposed data n).filter
                  (fun c => decide (deg c = 1)))
                  = ((out ++ [n]) ++ rest) ++ (transposed data n).filter
                      (fun c => decide (deg c = 1)) := by
                simp [List.append_assoc]
              rw [heq, List.nodup_append]
              refine ⟨hnd', List.Nodup.filter _ hcsnd, ?_⟩
              intro a ha ha'
              have h1 : deg a = 1 := by simpa using (List.mem_filter.mp ha').2
              have h0 : deg a = 0 := hdeg0 a (by rw [hshape]; exact ha)
              omega
            · intro x hx
              rw [hqq] at hx
              rcases List.mem_append.mp hx with hx | hx
              · rcases List.mem_append.mp hx with hx | hx
                · exact hsub x (List.mem_append_left _ hx)
                · rw [List.mem_singleton.mp hx]
                  exact hnn
              · rcases List.mem_append.mp hx with hx | hx
                · exact hsub x (List.mem_append_right _ (by simp [hx]))
                · exact keys_sub_nodes data x
                    (transposed_sub_keys data n x (List.mem_of_mem_filter hx))
            · intro m hm d hd
              rw [hqq] at hm
              have hmain : d ∈ out → d ∈ out ++ [n] := fun h => List.mem_append_left _ h
              rcases List.mem_append.mp hm with hm | hm
              · rcases List.mem_append.mp hm with hm | hm
                · exact hmain (hout m (List.mem_append_left _ hm) d hd)
                · rw [List.mem_singleton.mp hm] at hd
                  exact hmain (hdepn d hd)
              · rcases List.mem_append.mp hm with hm | hm
                · exact hmain (hout m (List.mem_append_right _ (by simp [hm])) d hd)
                · have hm1 : deg m = 1 := by simpa using (List.mem_filter.mp hm).2
                  have hmcs : m ∈ transposed data n := List.mem_of_mem_filter hm
                  have h0 : (decDeps (transposed data n) deg rest).1 m = 0 := by
                    rw [hdg m, if_pos hmcs]
                    omega
                  have hlen0 : ((kdeps data m).filter
                      (fun d => decide (d ∉ out ++ [n]))).length = 0 := by
                    have := hcnew m
                    omega
                  have hfnil := List.length_eq_zero.mp hlen0
                  by_contra hdout
                  have : d ∈ (kdeps data m).filter
                      (fun d => decide (d ∉ out ++ [n])) :=
                    List.mem_filter.mpr ⟨hd, by simpa using hdout⟩
                  rw [hfnil] at this
                  simp at this
            · intro m hmn h0
              rw [hdg m] at h0
              rw [hqq]
              by_cases hmcs : m ∈ transposed data n
              · rw [if_pos hmcs] at h0
                right
                refine List.mem_append_right _ (List.mem_filter.mpr ⟨hmcs, ?_⟩)
                simp only [decide_eq_true_eq]
                omega
              · rw [if_neg hmcs] at h0
                rcases hzero m hmn h0 with h | h
                · exact .inl (List.mem_append_left _ h)
                · rcases List.mem_cons.mp h with rfl | h
                  · exact .inl (List.mem_append_right _ (by simp))
                  · exact .inr (List.mem_append_left _ h)
          obtain ⟨r1, r2, r3, r4⟩ := ih (decDeps (transposed data n) deg rest).1
            (decDeps (transposed data n) deg rest).2 (out ++ [n]) hinv'
            (by
              simp only [List.length_append, List.length_singleton] at hfuel ⊢
              omega)
          have hre : ∀ z : List α, out ++ n :: z = (out ++ [n]) ++ z := by
            intro z
            simp
          refine ⟨?_, ?_, ?_, ?_⟩
          · rw [hre]
            exact r1
          · intro x hx
            have := r2 x hx
            rw [← hre] at this
            exact this
          · intro x hx
            rcases List.mem_cons.mp hx with rfl | hx
            · exact hnn
            · exact r3 x hx
          · exact ⟨fun d hdE => hdepn d ((depEdge_iff data hkeys n d).mp hdE), r4⟩

theorem topsort_def {α : Type} [DecidableEq α] (data : List (α × List α)) :
    topsort data = kahnLoop (transposed data) (graphNodes data).length
      (fun n => ((kdeps data n).length : Int))
      ((graphNodes data).filter
        (fun n => decide (((kdeps data n).length : Int) = 0))) := rfl

/-- C3: for every acyclic dependency dictionary (unique keys, each value
a duplicate-free dependency set), `topsort` yields every node occurring
as a key or as a dependency exactly once, with every dependency strictly
before every node depending on it; and `eval_order` is exactly this
`topsort` applied to the dependency graph of the union of the circuit's
cones and latch cones. -/
theorem topsort_eval_order_valid :
    (∀ (β : Type) [DecidableEq β] (data : List (β × List β)),
      (data.map Prod.fst).Nodup →
      (∀ p ∈ data, p.2.Nodup) →
      (∀ x, ¬ Relation.TransGen (depEdge data) x x) →
      (topsort data).Nodup ∧
      (∀ x, x ∈ topsort data ↔ x ∈ graphNodes data) ∧
      (∀ (l₁ : List β) (m : β) (l₂ : List β), topsort data = l₁ ++ m :: l₂ →
        ∀ d, depEdge data d m → d ∈ l₁)) ∧
    (∀ A : AIG, eval_order A
      = topsort (_dependency_graph ((A.cones ++ A.latch_cones).dedup))) := by
  constructor
  · intro β _ data hkeys hdeps hacyc
    have hinv : KInv data (fun n => ((kdeps data n).length : Int))
        ((graphNodes data).filter
          (fun n => decide (((kdeps data n).length : Int) = 0))) [] := by
      refine ⟨?_, ?_, ?_, ?_, ?_⟩
      · simpa using List.Nodup.filter _ (graphNodes_nodup data)
      · intro x hx
        simp only [List.nil_append] at hx
        exact List.mem_of_mem_filter hx
      · intro m
        have : (kdeps data m).filter (fun d => decide (d ∉ ([] : List β)))
            = kdeps data m := by
          rw [List.filter_eq_self]
          intro d _
          simp
        rw [this]
      · intro m hm d hd
        simp only [List.nil_append] at hm
        have h0 : ((kdeps data m).length : Int) = 0 := by
          simpa using (List.mem_filter.mp hm).2
        have : kdeps data m = [] := by
          rw [← List.length_eq_zero]
          omega
        rw [this] at hd
        simp at hd
      · intro m hm h0
        exact .inr (List.mem_filter.mpr ⟨hm, by simpa using h0⟩)
    obtain ⟨r1, r2, r3, r4⟩ := kahnLoop_spec data hkeys hdeps hacyc
      (graphNodes data).length (fun n => ((kdeps data n).length : Int))
      ((graphNodes data).filter
        (fun n => decide (((kdeps data n).length : Int) = 0))) [] hinv (by simp)
    rw [topsort_def]
    refine ⟨by simpa using r1, fun x => ⟨fun hx => r3 x hx,
      fun hx => by simpa using r2 x hx⟩, fun l₁ m l₂ hsplit d hdE => ?_⟩
    rcases sortedDeps_split (depEdge data) l₁ [] _ m l₂ r4 hsplit d hdE with h | h
    · simp at h
    · exact h
  · intro A
    rfl

/-- C3 witness. -/
theorem topsort_eval_order_valid_witness :
    (topsort [("b", ["a"])]).Nodup ∧
    (∀ x, x ∈ topsort [("b", ["a"])] ↔ x ∈ graphNodes [("b", ["a"])]) ∧
    (∀ l₁ m l₂, topsort [("b", ["a"])] = l₁ ++ m :: l₂ →
      ∀ d, depEdge [("b", ["a"])] d m → d ∈ l₁) := by
  have hedge : ∀ d m : String, depEdge [("b", ["a"])] d m → d = "a" ∧ m = "b" := by
    rintro d m ⟨ds, hmem, hd⟩
    simp only [List.mem_singleton, Prod.mk.injEq] at hmem
    obtain ⟨hm, hds⟩ := hmem
    subst hds
    exact ⟨List.mem_singleton.mp hd, hm⟩
  have hacyc : ∀ x, ¬ Relation.TransGen (depEdge [("b", ["a"])]) x x := by
    have htg : ∀ x y, Relation.TransGen (depEdge [("b", ["a"])]) x y →
        x = "a" ∧ y = "b" := by
      intro x y h
      induction h with
      | single h => exact hedge _ _ h
      | tail _ h2 ih =>
          have hba : ("b" : String) = "a" := by
            rw [← ih.2]
            exact (hedge _ _ h2).1
          exact absurd hba (by decide)
    intro x hx
    have h2 := htg x x hx
    have : ("a" : String) = "b" := by rw [← h2.1, h2.2]
    exact absurd this (by decide)
  exact topsort_eval_order_valid.1 String [("b", ["a"])] (by decide) (by decide) hacyc
